import Mathlib

/-!
Verification development for the FlashSprint console flashcard program
(`FlashSprintConcole.c`).  The program keeps three structures in sync: a
card store (singly linked list, newest first), a tag index (hash map from
normalized tag to a list of card references) and a review queue (FIFO of
card references) driven by a rotation-based spaced-repetition scheduler.

The shallow embedding below models C strings as lists of byte values
(`CStr := List Nat`), C `int` as `Int` (signed overflow is undefined
behaviour in C, and the program clamps its scheduling fields explicitly),
pointers to cards as their unique integer ids, and the hash map as an
association list: the hash only partitions entries into chains, every
chain is searched by full string comparison (`strcmp`) and a given tag
occurs in at most one entry, so an association list keyed by the tag has
exactly the observable behaviour of the table.
-/

/-- Byte strings: the model of C strings (one `Nat` per byte). -/
abbrev CStr := List Nat

/-- Turn a Lean string literal into its byte-list model (ASCII data only). -/
def str (s : String) : CStr := s.data.map Char.toNat

/-- C `isspace` in the default locale: space, \t, \n, \v, \f, \r. -/
def isspaceB (b : Nat) : Bool := decide (b = 32 ∨ (9 ≤ b ∧ b ≤ 13))

/-- C `tolower` in the default locale: maps A-Z to a-z, identity elsewhere. -/
def lowerB (b : Nat) : Nat := if 65 ≤ b ∧ b ≤ 90 then b + 32 else b

/-- Source `trim_newline`: strip trailing '\n' and '\r' bytes. -/
def trim_newline (s : CStr) : CStr :=
  (s.reverse.dropWhile (fun b => b = 10 || b = 13)).reverse

/-- Source `str_ltrim`: drop leading whitespace. -/
def str_ltrim (s : CStr) : CStr := s.dropWhile isspaceB

/-- Source `str_rtrim`: drop trailing whitespace. -/
def str_rtrim (s : CStr) : CStr := (s.reverse.dropWhile isspaceB).reverse

/-- Source `trim_whitespace`: left trim, then right trim. -/
def trim_whitespace (s : CStr) : CStr := str_rtrim (str_ltrim s)

/-- Source `normalize_tag`: trim surrounding whitespace, then lower-case. -/
def normalize_tag (s : CStr) : CStr := (trim_whitespace s).map lowerB

/-- Model of `strsep(&p, ",")` applied repeatedly: split at every comma,
keeping empty tokens ("" splits into one empty token, like `strsep`). -/
def splitComma : CStr → List CStr
  | [] => [[]]
  | b :: rest =>
    if b = 44 then [] :: splitComma rest
    else
      match splitComma rest with
      | t :: ts => (b :: t) :: ts
      | [] => [[b]]

/-- Source `parse_tags`: split a comma-separated line into tokens, trim
each, drop tokens that trim to empty, normalize the rest. -/
def parse_tags (line : CStr) : List CStr :=
  (splitComma line).filterMap fun tok =>
    let t := trim_whitespace tok
    if t = [] then none else some (normalize_tag t)

/-- Comma-join of a card's tags as written by `save_cards_to_file`. -/
def joinComma : List CStr → CStr
  | [] => []
  | [t] => t
  | t :: ts => t ++ 44 :: joinComma ts

/-- Decimal digits of a natural number, most significant first, as bytes
(the digit-emitting core of `fprintf("%d", ...)`).  Structural recursion
on a fuel argument so the definition evaluates by kernel reduction; any
fuel with `n ≤ fuel` yields the digits of `n`. -/
def natToStrGo : Nat → Nat → List Nat → List Nat
  | 0, n, acc => (n % 10 + 48) :: acc
  | fuel + 1, n, acc =>
    let acc' := (n % 10 + 48) :: acc
    if n < 10 then acc' else natToStrGo fuel (n / 10) acc'

/-- Rendering of a C `int` by `fprintf("%d", ...)`. -/
def intToStr (i : Int) : CStr :=
  if i < 0 then 45 :: natToStrGo i.natAbs i.natAbs [] else natToStrGo i.toNat i.toNat []

/-- Value of a maximal leading run of decimal digits (helper for `atoi`). -/
def digitsVal : CStr → Nat → Nat
  | [], acc => acc
  | b :: rest, acc =>
    if 48 ≤ b && b ≤ 57 then digitsVal rest (acc * 10 + (b - 48)) else acc

/-- Sign-and-digits part of `atoi` (after whitespace skipping). -/
def atoiBody : CStr → Int
  | [] => 0
  | b :: rest =>
    if b = 45 then -(digitsVal rest 0 : Int)
    else if b = 43 then (digitsVal rest 0 : Int)
    else (digitsVal (b :: rest) 0 : Int)

/-- C `atoi`: skip leading whitespace, optional sign, then digits. -/
def atoi (s : CStr) : Int := atoiBody (s.dropWhile isspaceB)

/-- Model of `struct Card`.  The C program never reuses ids, so the id
doubles as the model of the card's address (pointer identity). -/
structure Card where
  id : Int
  question : CStr
  answer : CStr
  tags : List CStr
  interval : Int
  due_in : Int
deriving DecidableEq

/-- Placeholder card returned by lookups that cannot fail in the C program
(dereferencing a pointer that the invariants guarantee is valid). -/
def cardDefault : Card := ⟨0, [], [], [], 1, 0⟩

/-- Combined program state: `cards_head` list (newest first) plus
`next_card_id`, the tag hash map, and the review queue (front first).
The tag map holds card ids (pointer model); the queue holds card ids. -/
structure AppState where
  cards : List Card
  next_card_id : Int
  tag_map : List (CStr × List Int)
  queue : List Int
deriving DecidableEq

/-- The state at program start (before `load_sample_cards`). -/
def initState : AppState := ⟨[], 1, [], []⟩

/-- Ids of the cards in the store, in `cards_head` order. -/
def cardIds (s : AppState) : List Int := s.cards.map Card.id

/-- Dereference a card pointer: the first store entry with this id. -/
def getCard (cards : List Card) (i : Int) : Card :=
  match cards.find? (fun c => c.id == i) with
  | some c => c
  | none => cardDefault

/-- Mutation through a card pointer: rewrite the first store entry with
this id (ids are unique, so this is exactly the pointed-to card). -/
def updateCard : List Card → Int → (Card → Card) → List Card
  | [], _, _ => []
  | c :: cs, i, f => if c.id = i then f c :: cs else c :: updateCard cs i f

/-- Source `tag_add_card`: find the entry for this exact tag (creating it
if absent) and push the card onto the front of its card list; no
duplicate checking. -/
def tag_add_card : List (CStr × List Int) → CStr → Int → List (CStr × List Int)
  | [], t, cid => [(t, [cid])]
  | e :: es, t, cid =>
    if e.1 = t then (e.1, cid :: e.2) :: es
    else e :: tag_add_card es t cid

/-- Contents of the bucket for an exact tag (`tag_find`), `[]` if absent. -/
def lookupList (m : List (CStr × List Int)) (t : CStr) : List Int :=
  match m.find? (fun e => e.1 == t) with
  | some e => e.2
  | none => []

/-- One step of `tag_remove_card`: remove the first occurrence of the
card from this tag's bucket; if the bucket becomes empty, delete the
entry itself. -/
def tag_remove_one : List (CStr × List Int) → CStr → Int → List (CStr × List Int)
  | [], _, _ => []
  | e :: es, t, cid =>
    if e.1 = t then
      let l := e.2.erase cid
      if l = [] then es else (e.1, l) :: es
    else e :: tag_remove_one es t cid

/-- Source `tag_remove_card`: remove the card from the bucket of each of
its tags, once per occurrence of the tag in `card->tags`. -/
def tag_remove_card (c : Card) (m : List (CStr × List Int)) : List (CStr × List Int) :=
  c.tags.foldl (fun m t => tag_remove_one m t c.id) m

/-- Source `create_card`: assign the next id, copy the content, start
with `interval = 1`, `due_in = 0`, push onto the store list and register
every tag occurrence.  Returns the new card's id and the new state. -/
def create_card (q a : CStr) (tks : List CStr) (s : AppState) : Int × AppState :=
  let cid := s.next_card_id
  let c : Card := ⟨cid, q, a, tks, 1, 0⟩
  (cid, { s with cards := c :: s.cards,
                 next_card_id := s.next_card_id + 1,
                 tag_map := tks.foldl (fun m t => tag_add_card m t cid) s.tag_map })

/-- Removal of the first store entry with the given id (the pointer found
by `find_card_by_id`, unlinked by `delete_card`). -/
def eraseCardById : List Card → Int → List Card
  | [], _ => []
  | c :: cs, i => if c.id = i then cs else c :: eraseCardById cs i

/-- The `c->due_in = 0` assignment after `create_card` in
`add_card_interactive` (new cards are due immediately). -/
def setDue0 (c : Card) : Card := { c with due_in := 0 }

/-- Source `add_card_interactive` applied to the three input lines (as
returned by `fgets`, still carrying any trailing newline): reject an
empty question, otherwise create the card, force `due_in = 0` and push
it onto the back of the review queue. -/
def add_card_interactive (qline aline tline : CStr) (s : AppState) : AppState :=
  if trim_newline qline = [] then s
  else
    let q := trim_newline qline
    let a := trim_newline aline
    let tks := parse_tags (trim_newline tline)
    let cid := (create_card q a tks s).1
    let s1 := (create_card q a tks s).2
    let s2 := { s1 with cards := updateCard s1.cards cid setDue0 }
    { s2 with queue := s2.queue ++ [cid] }

/-- Source `remove_card_interactive` applied to the parsed id: if no card
has the id, do nothing; otherwise rebuild the queue skipping every node
that points to the card, then `delete_card` (unlink from store, remove
from tag map). -/
def remove_card_interactive (i : Int) (s : AppState) : AppState :=
  match s.cards.find? (fun c => c.id == i) with
  | none => s
  | some c =>
    { s with queue := s.queue.filter (fun j => j ≠ c.id),
             cards := eraseCardById s.cards c.id,
             tag_map := tag_remove_card c s.tag_map }

/-- Scheduling update for a correct answer: double the interval (with the
source's `< 1` clamp) and make the card due after that many rotations. -/
def gradeCorrect (c : Card) : Card :=
  let i := c.interval * 2
  let i := if i < 1 then 1 else i
  { c with interval := i, due_in := i }

/-- Scheduling update for an incorrect answer. -/
def gradeIncorrect (c : Card) : Card := { c with interval := 1, due_in := 1 }

/-- The `card->due_in -= 1` step applied to a not-yet-due scanned card. -/
def decDue (c : Card) : Card := { c with due_in := c.due_in - 1 }

/-- The scan loop of `practice_loop`: pop up to `fuel = initial_size`
cards; a popped card with `due_in > 0` is decremented and requeued, the
first popped card with `due_in ≤ 0` is presented.  Returns the presented
card (if any), the remaining queue, the updated store and the number of
pops performed. -/
def scanGo : Nat → List Int → List Card → Option Int × List Int × List Card × Nat
  | 0, qu, cs => (none, qu, cs, 0)
  | _ + 1, [], cs => (none, [], cs, 0)
  | fuel + 1, cid :: rest, cs =>
    if (getCard cs cid).due_in > 0 then
      let r := scanGo fuel (rest ++ [cid]) (updateCard cs cid decDue)
      (r.1, r.2.1, r.2.2.1, r.2.2.2 + 1)
    else (some cid, rest, cs, 1)

/-- One scan pass over the whole queue (`initial_size = q->size`). -/
def scanQueue (qu : List Int) (cs : List Card) : Option Int × List Int × List Card × Nat :=
  scanGo qu.length qu cs

/-- The collaborator's input at the two prompts of one presentation. -/
inductive Verdict
  | correct
  | incorrect
  | stopBefore
  | stopAfter
  | eofBefore
  | eofAfter
deriving DecidableEq

/-- One iteration of the outer `practice_loop` while-loop: run one scan
pass; if a card is presented, apply the collaborator's verdict.  `stop*`
is the "q" input (requeue unchanged), `eof*` is end-of-file at either
prompt (`return` without requeueing), `correct`/`incorrect` grade and
requeue. -/
def practice_round (v : Verdict) (s : AppState) : AppState :=
  if s.queue.isEmpty then s
  else
    let r := scanQueue s.queue s.cards
    match r.1 with
    | none => { s with queue := r.2.1, cards := r.2.2.1 }
    | some cid =>
      match v with
      | .eofBefore => { s with queue := r.2.1, cards := r.2.2.1 }
      | .eofAfter => { s with queue := r.2.1, cards := r.2.2.1 }
      | .stopBefore => { s with queue := r.2.1 ++ [cid], cards := r.2.2.1 }
      | .stopAfter => { s with queue := r.2.1 ++ [cid], cards := r.2.2.1 }
      | .correct => { s with queue := r.2.1 ++ [cid], cards := updateCard r.2.2.1 cid gradeCorrect }
      | .incorrect => { s with queue := r.2.1 ++ [cid], cards := updateCard r.2.2.1 cid gradeIncorrect }

/-- Source `search_by_tag`: the query is copied into a 256-byte buffer by
`strncpy` (truncating to 255 bytes), normalized, and looked up; the
result is the bucket's card list (empty when absent). -/
def search_by_tag (s : AppState) (query : CStr) : List Int :=
  lookupList s.tag_map (normalize_tag (query.take 255))

/-- The lines written by `save_cards_to_file` for one card. -/
def cardBlock (c : Card) : List CStr :=
  [str "ID=" ++ intToStr c.id,
   str "Q=" ++ c.question,
   str "A=" ++ c.answer,
   str "T=" ++ joinComma c.tags,
   str "I=" ++ intToStr c.interval,
   str "D=" ++ intToStr c.due_in,
   str "---"]

/-- Source `save_cards_to_file`: one block per card, in store order. -/
def save_cards (s : AppState) : List CStr :=
  (s.cards.map cardBlock).flatten

/-- Byte stream of a file holding the given lines, each terminated by a
line feed (`fprintf` writes every field line with a trailing `\n`). -/
def joinLines (ls : List CStr) : CStr := (ls.map (fun l => l ++ [10])).flatten

/-- The bytes `save_cards_to_file` writes to the file. -/
def save_stream (s : AppState) : CStr := joinLines (save_cards s)

/-- One `fgets(buf, cap + 1, f)` call on a byte stream: read at most `cap`
bytes, stopping after a line feed; returns the bytes read and the rest of
the stream. -/
def readLine : Nat → CStr → CStr × CStr
  | 0, s => ([], s)
  | _ + 1, [] => ([], [])
  | cap + 1, b :: t =>
    if b = 10 then ([10], t)
    else ((b :: (readLine cap t).1), (readLine cap t).2)

/-- Successive `fgets(line, 4096, f)` reads of `load_cards_from_file`:
split the file's byte stream into chunks of at most 4095 bytes, each
chunk ending at a line feed unless the buffer fills first.  The fuel is
only for termination; `stream.length` is always enough. -/
def fgetsGo : Nat → CStr → List CStr
  | 0, _ => []
  | _ + 1, [] => []
  | fuel + 1, b :: t =>
    (readLine 4095 (b :: t)).1 :: fgetsGo fuel (readLine 4095 (b :: t)).2

/-- The chunk sequence `fgets` delivers for a whole file. -/
def fgets_split (stream : CStr) : List CStr := fgetsGo stream.length stream

/-- Parser state of `load_cards_from_file` between lines. -/
structure PState where
  id : Int
  interval : Int
  due : Int
  qtext : Option CStr
  atext : Option CStr
  tagsline : Option CStr
deriving DecidableEq

/-- Parser state at the start of a record. -/
def resetP : PState := ⟨0, 1, 0, none, none, none⟩

/-- The loader's `c->interval = interval>0?interval:1; c->due_in =
due>=0?due:0;` overwrite of the freshly created card. -/
def loadFix (itv due : Int) (c : Card) : Card :=
  { c with interval := if itv > 0 then itv else 1,
           due_in := if due ≥ 0 then due else 0 }

/-- The record-commit step of the loader: if both question and answer
lines were seen, create the card, overwrite interval (clamped to ≥ 1)
and due (clamped to ≥ 0), advance `next_card_id` past the saved id, and
enqueue. -/
def commitCard (p : PState) (s : AppState) : AppState :=
  match p.qtext, p.atext with
  | some q, some a =>
    let tks := parse_tags (p.tagsline.getD [])
    let cid := (create_card q a tks s).1
    let s1 := (create_card q a tks s).2
    let s2 := { s1 with cards := updateCard s1.cards cid (loadFix p.interval p.due) }
    { s2 with
      next_card_id := if p.id ≥ s2.next_card_id then p.id + 1 else s2.next_card_id,
      queue := s2.queue ++ [cid] }
  | _, _ => s

/-- Processing of one (already `trim_newline`d) line by
`load_cards_from_file`, given the parser state and the app state. -/
def loadLineT (p : PState) (s : AppState) (line : CStr) : PState × AppState :=
  if (str "ID=").isPrefixOf line then ({ p with id := atoi (line.drop 3) }, s)
  else if (str "Q=").isPrefixOf line then ({ p with qtext := some (line.drop 2) }, s)
  else if (str "A=").isPrefixOf line then ({ p with atext := some (line.drop 2) }, s)
  else if (str "T=").isPrefixOf line then ({ p with tagsline := some (line.drop 2) }, s)
  else if (str "I=").isPrefixOf line then ({ p with interval := atoi (line.drop 2) }, s)
  else if (str "D=").isPrefixOf line then ({ p with due := atoi (line.drop 2) }, s)
  else if line = str "---" then (resetP, commitCard p s)
  else (p, s)

/-- Processing of one `fgets` chunk by `load_cards_from_file` (the
source first strips the trailing newline). -/
def loadLine (st : PState × AppState) (line0 : CStr) : PState × AppState :=
  loadLineT st.1 st.2 (trim_newline line0)

/-- Source `load_cards_from_file` on a successfully opened file, given as
its byte stream: clear all data (cards, tag map, queue — `next_card_id`
is kept), fold the line parser over the chunks the 4096-byte `fgets`
buffer delivers (a stored line longer than 4095 bytes arrives in several
chunks), and commit a trailing record that lacks the final `---`. -/
def load_cards (stream : CStr) (s : AppState) : AppState :=
  let s0 : AppState := { s with cards := [], tag_map := [], queue := [] }
  let r := (fgets_split stream).foldl loadLine (resetP, s0)
  commitCard r.1 r.2

/-- The operations of the interactive loop that touch the core state.
`add`/`remove` are menu options 2 and 3, `practice` is one scan-and-
present iteration of option 1, `load` is option 7 on a file with the
given byte stream.  Saving does not change the state. -/
inductive Op
  | add (qline aline tline : CStr)
  | remove (id : Int)
  | practice (v : Verdict)
  | load (stream : CStr)

/-- Apply one operation. -/
def applyOp (s : AppState) : Op → AppState
  | .add q a t => add_card_interactive q a t s
  | .remove i => remove_card_interactive i s
  | .practice v => practice_round v s
  | .load stream => load_cards stream s

/-- Apply a sequence of operations from the left. -/
def applyOps (s : AppState) (ops : List Op) : AppState := ops.foldl applyOp s

/-- Content of a card apart from its id and scheduling fields. -/
def content (c : Card) : CStr × CStr × List CStr := (c.question, c.answer, c.tags)

/-- Identity-relevant part of a card: everything except the two mutable
scheduling fields.  Scanning and grading preserve it. -/
def shape (c : Card) : Int × CStr × CStr × List CStr := (c.id, c.question, c.answer, c.tags)

/-- Number of times tag `t` occurs on the card with id `i` (0 if absent):
the reference count the tag map must agree with. -/
def countTagIn (cards : List Card) (i : Int) (t : CStr) : Nat :=
  match cards.find? (fun c => c.id == i) with
  | some c => c.tags.count t
  | none => 0

/-! ### Well-formedness predicates

`GoodTag` holds of every tag stored on a card (they are produced by
`parse_tags`, hence nonempty, comma-free and fixed by normalization).
`GoodText`/`GoodLine` record that a string came in through a 4096-byte
`fgets` buffer (so it has no interior line feed, no NUL byte and at most
4095 bytes) and, for stored text, that the program already stripped any
trailing carriage returns. -/

abbrev GoodTag (t : CStr) : Prop := t ≠ [] ∧ 44 ∉ t ∧ normalize_tag t = t

abbrev GoodText (s : CStr) : Prop := 10 ∉ s ∧ 0 ∉ s ∧ ∀ b, s.getLast? = some b → b ≠ 13

abbrev GoodLine (l : CStr) : Prop := 10 ∉ l ∧ 0 ∉ l ∧ l.length ≤ 4095

/-- Inputs the interactive loop can actually receive: each prompt line
comes out of a 4096-byte `fgets` buffer (no interior line feed, no NUL
byte, at most 4095 bytes); a loaded file is an arbitrary byte stream
without NUL bytes (the C code reads NUL bytes but then silently drops
everything after them in a chunk, which this model does not follow). -/
def GoodOp : Op → Prop
  | .add q a t => GoodLine q ∧ GoodLine a ∧ GoodLine t
  | .remove _ => True
  | .practice _ => True
  | .load stream => 0 ∉ stream

/-- Every operation of the sequence is fgets-representable. -/
def GoodOps (ops : List Op) : Prop := ∀ op ∈ ops, GoodOp op

/-- The structural invariant of every reachable state: ids are positive,
unique and below the id counter; the queue holds existing cards, each at
most once; scheduling fields are in range; stored tags are normalized,
nonempty and comma-free; the tag map has unique nonempty buckets whose
reference counts agree with the cards' tag lists. -/
structure StInv (s : AppState) : Prop where
  next_pos : 1 ≤ s.next_card_id
  ids_pos : ∀ c ∈ s.cards, 1 ≤ c.id
  ids_lt : ∀ c ∈ s.cards, c.id < s.next_card_id
  ids_nodup : (cardIds s).Nodup
  queue_sub : ∀ i ∈ s.queue, i ∈ cardIds s
  queue_nodup : s.queue.Nodup
  sched : ∀ c ∈ s.cards, 1 ≤ c.interval ∧ 0 ≤ c.due_in
  tags_good : ∀ c ∈ s.cards, ∀ t ∈ c.tags, GoodTag t
  keys_nodup : (s.tag_map.map Prod.fst).Nodup
  buckets_ne : ∀ e ∈ s.tag_map, e.2 ≠ []
  tag_count : ∀ t i, (lookupList s.tag_map t).count i = countTagIn s.cards i t

/-- The extra per-card invariant tied to fgets-representable inputs:
stored text has no interior line feeds, no NUL bytes and no trailing
carriage return, so the save format can round-trip it. -/
def GoodCardText (c : Card) : Prop :=
  GoodText c.question ∧ GoodText c.answer ∧ ∀ t ∈ c.tags, 10 ∉ t ∧ 0 ∉ t

/-- All stored cards have fgets-representable text. -/
def TextInv (cs : List Card) : Prop := ∀ c ∈ cs, GoodCardText c

/-- Loader parser fields only ever hold fgets-representable text. -/
def PGood (p : PState) : Prop :=
  (∀ q, p.qtext = some q → GoodText q) ∧ (∀ a, p.atext = some a → GoodText a) ∧
    (∀ tl, p.tagsline = some tl → 10 ∉ tl ∧ 0 ∉ tl)

/-- Content of a card that the save format must round-trip: everything
except the loader-assigned id. -/
def cardData (c : Card) : CStr × CStr × List CStr × Int × Int :=
  (c.question, c.answer, c.tags, c.interval, c.due_in)

/-- Parser state right before the `---` line of a saved card block. -/
def fullP (c : Card) : PState :=
  ⟨c.id, c.interval, c.due_in, some c.question, some c.answer, some (joinComma c.tags)⟩

/-- Net effect of loading one saved card block: the commit at its `---`
line from the fully populated parser state. -/
def loadStep (c : Card) (s : AppState) : AppState := commitCard (fullP c) s

/-- The operations of the interactive loop that only create or delete
cards (menu options 2 and 3). -/
def AddRemOp : Op → Prop
  | .add _ _ _ => True
  | .remove _ => True
  | .practice _ => False
  | .load _ => False

/-- Every operation of the sequence is a create or a delete. -/
def AddRemOnly (ops : List Op) : Prop := ∀ op ∈ ops, AddRemOp op

/-- Concrete inputs used to evaluate the definitions on closed terms. -/
def exAdd1 : Op := Op.add (str "q1") (str "a1") (str "ds")

/-- State after one interactive add. -/
def exS1 : AppState := applyOps initState [exAdd1]

/-- A 255-byte tag (the longest that survives `strncpy` untruncated). -/
def tag255 : CStr := List.replicate 255 97

/-- State holding one card tagged with the 255-byte tag. -/
def exS7 : AppState := applyOps initState [Op.add (str "q") (str "a") tag255]

/-- Lines of a save file with two records, the first not yet due. -/
def exLines : List CStr :=
  [str "ID=1", str "Q=q", str "A=a", str "T=t", str "I=2", str "D=1", str "---",
   str "ID=2", str "Q=r", str "A=b", str "T=u", str "I=1", str "D=0", str "---"]

/-- State obtained by loading that file into the initial state. -/
def exS3 : AppState := applyOps initState [Op.load (joinLines exLines)]

/-! ### Byte and whitespace lemmas -/

lemma isspaceB_iff (b : Nat) : isspaceB b = true ↔ b = 32 ∨ (9 ≤ b ∧ b ≤ 13) := by
  simp [isspaceB]

lemma lowerB_isspaceB (b : Nat) : isspaceB (lowerB b) = isspaceB b := by
  unfold lowerB
  split <;> rename_i h
  · rw [isspaceB, isspaceB, decide_eq_decide]
    constructor <;> intro hx <;> omega
  · rfl

lemma lowerB_lowerB (b : Nat) : lowerB (lowerB b) = lowerB b := by
  by_cases h : 65 ≤ b ∧ b ≤ 90
  · have h1 : lowerB b = b + 32 := by simp only [lowerB]; rw [if_pos h]
    rw [h1]
    simp only [lowerB]
    rw [if_neg (by omega)]
  · have h1 : lowerB b = b := by simp only [lowerB]; rw [if_neg h]
    rw [h1, h1]

lemma lowerB_eq_low {b v : Nat} (hv : v < 65) : lowerB b = v ↔ b = v := by
  unfold lowerB
  split <;> rename_i h
  · omega
  · exact Iff.rfl

lemma lowerB_not_mem_low {l : List Nat} {v : Nat} (hv : v < 65) (h : v ∉ l) :
    v ∉ l.map lowerB := by
  intro hm
  obtain ⟨b, hb, hbe⟩ := List.mem_map.mp hm
  exact h ((lowerB_eq_low hv).mp hbe ▸ hb)

lemma dropWhile_head_not {α : Type} (p : α → Bool) (l : List α) :
    l.dropWhile p = [] ∨ ∃ b t, l.dropWhile p = b :: t ∧ p b = false := by
  induction l with
  | nil => exact Or.inl rfl
  | cons a l ih =>
    by_cases h : p a
    · simpa [List.dropWhile_cons, h] using ih
    · exact Or.inr ⟨a, l, by simp [List.dropWhile_cons, h], by simpa using h⟩

lemma dropWhile_eq_self_of_head {α : Type} (p : α → Bool) (l : List α)
    (h : l = [] ∨ ∃ b t, l = b :: t ∧ p b = false) : l.dropWhile p = l := by
  rcases h with rfl | ⟨b, t, rfl, hb⟩
  · rfl
  · simp [List.dropWhile_cons, hb]

lemma dropWhile_dropWhile {α : Type} (p : α → Bool) (l : List α) :
    (l.dropWhile p).dropWhile p = l.dropWhile p :=
  dropWhile_eq_self_of_head p _ (dropWhile_head_not p l)

lemma length_dropWhile_le' {α : Type} (p : α → Bool) (l : List α) :
    (l.dropWhile p).length ≤ l.length :=
  (List.dropWhile_sublist p).length_le

lemma dropWhile_eq_self_of_length {α : Type} (p : α → Bool) (l : List α)
    (h : (l.dropWhile p).length = l.length) : l.dropWhile p = l := by
  induction l with
  | nil => rfl
  | cons a l ih =>
    by_cases hp : p a
    · exfalso
      rw [List.dropWhile_cons, if_pos hp] at h
      have := length_dropWhile_le' p l
      simp at h; omega
    · rw [List.dropWhile_cons, if_neg hp]

lemma mem_of_mem_dropWhile {α : Type} {p : α → Bool} {l : List α} {b : α}
    (h : b ∈ l.dropWhile p) : b ∈ l :=
  (List.dropWhile_sublist p).mem h

/-! ### trim and normalize lemmas -/

lemma str_ltrim_ltrim (s : CStr) : str_ltrim (str_ltrim s) = str_ltrim s :=
  dropWhile_dropWhile isspaceB s

lemma str_rtrim_rtrim (s : CStr) : str_rtrim (str_rtrim s) = str_rtrim s := by
  unfold str_rtrim
  rw [List.reverse_reverse, dropWhile_dropWhile]

lemma str_ltrim_head (s : CStr) :
    str_ltrim s = [] ∨ ∃ b t, str_ltrim s = b :: t ∧ isspaceB b = false :=
  dropWhile_head_not isspaceB s

lemma str_rtrim_prefix (s : CStr) : str_rtrim s <+: s := by
  unfold str_rtrim
  obtain ⟨t, ht⟩ := List.dropWhile_suffix (l := s.reverse) isspaceB
  exact ⟨t.reverse, by rw [← List.reverse_append, ht, List.reverse_reverse]⟩

lemma str_ltrim_rtrim_fixed (s : CStr)
    (h : s = [] ∨ ∃ b t, s = b :: t ∧ isspaceB b = false) :
    str_ltrim (str_rtrim s) = str_rtrim s := by
  rcases h with rfl | ⟨b, t, rfl, hb⟩
  · rfl
  · obtain ⟨u, hu⟩ := str_rtrim_prefix (b :: t)
    apply dropWhile_eq_self_of_head
    rcases he : str_rtrim (b :: t) with _ | ⟨b', t'⟩
    · exact Or.inl rfl
    · refine Or.inr ⟨b', t', rfl, ?_⟩
      rw [he] at hu
      have hbb : b' = b := by
        have h2 := congrArg List.head? hu
        simpa using h2
      rw [hbb]; exact hb

lemma trim_whitespace_idem (s : CStr) :
    trim_whitespace (trim_whitespace s) = trim_whitespace s := by
  unfold trim_whitespace
  rw [str_ltrim_rtrim_fixed (str_ltrim s) (str_ltrim_head s), str_rtrim_rtrim]

lemma comp_isspace_lower : (isspaceB ∘ lowerB) = isspaceB :=
  funext fun b => lowerB_isspaceB b

lemma str_ltrim_map_lower (s : CStr) :
    str_ltrim (s.map lowerB) = (str_ltrim s).map lowerB := by
  unfold str_ltrim
  rw [List.dropWhile_map, comp_isspace_lower]

lemma str_rtrim_map_lower (s : CStr) :
    str_rtrim (s.map lowerB) = (str_rtrim s).map lowerB := by
  unfold str_rtrim
  rw [← List.map_reverse, List.dropWhile_map, comp_isspace_lower, ← List.map_reverse]

lemma trim_whitespace_map_lower (s : CStr) :
    trim_whitespace (s.map lowerB) = (trim_whitespace s).map lowerB := by
  unfold trim_whitespace
  rw [str_ltrim_map_lower, str_rtrim_map_lower]

lemma normalize_tag_idem (s : CStr) :
    normalize_tag (normalize_tag s) = normalize_tag s := by
  unfold normalize_tag
  rw [trim_whitespace_map_lower, trim_whitespace_idem, List.map_map]
  rw [show (lowerB ∘ lowerB) = lowerB from funext fun b => lowerB_lowerB b]

lemma length_trim_whitespace_le (s : CStr) :
    (trim_whitespace s).length ≤ s.length := by
  unfold trim_whitespace str_rtrim str_ltrim
  calc ((s.dropWhile isspaceB).reverse.dropWhile isspaceB).reverse.length
      ≤ (s.dropWhile isspaceB).reverse.length := by
        rw [List.length_reverse]; exact length_dropWhile_le' _ _
    _ ≤ s.length := by
        rw [List.length_reverse]; exact length_dropWhile_le' _ _

lemma length_normalize_tag_le (s : CStr) :
    (normalize_tag s).length ≤ s.length := by
  unfold normalize_tag
  rw [List.length_map]
  exact length_trim_whitespace_le s

lemma trim_whitespace_of_normalize_fixed {t : CStr} (h : normalize_tag t = t) :
    trim_whitespace t = t := by
  unfold normalize_tag at h
  have hlen : (trim_whitespace t).length = t.length := by
    have h0 := congrArg List.length h
    simpa using h0
  unfold trim_whitespace str_rtrim at hlen ⊢
  have h2 := length_dropWhile_le' isspaceB (str_ltrim t).reverse
  have h3 := length_dropWhile_le' isspaceB t
  have h1 : (str_ltrim t).length = t.length := by
    simp only [List.length_reverse] at hlen h2
    unfold str_ltrim at *
    omega
  have h1' : str_ltrim t = t := dropWhile_eq_self_of_length _ _ h1
  rw [h1'] at hlen ⊢
  have h4 : (t.reverse.dropWhile isspaceB).length = t.reverse.length := by
    simp only [List.length_reverse] at hlen ⊢
    simpa using hlen
  rw [dropWhile_eq_self_of_length _ _ h4, List.reverse_reverse]

/-! ### splitComma, joinComma and parse_tags lemmas -/

lemma splitComma_ne_nil (s : CStr) : splitComma s ≠ [] := by
  cases s with
  | nil => simp [splitComma]
  | cons b rest =>
    rw [splitComma]
    split
    · simp
    · rcases h : splitComma rest with _ | ⟨t, ts⟩ <;> simp [h]

lemma mem_splitComma {s t : CStr} (h : t ∈ splitComma s) :
    44 ∉ t ∧ ∀ b ∈ t, b ∈ s := by
  induction s generalizing t with
  | nil =>
    rw [splitComma] at h
    simp at h
    subst h
    simp
  | cons b rest ih =>
    rw [splitComma] at h
    split at h
    · rename_i hb
      subst hb
      rcases List.mem_cons.mp h with rfl | h2
      · simp
      · obtain ⟨h44, hsub⟩ := ih h2
        exact ⟨h44, fun x hx => List.mem_cons_of_mem _ (hsub x hx)⟩
    · rename_i hb
      rcases he : splitComma rest with _ | ⟨t0, ts⟩
      · exact absurd he (splitComma_ne_nil rest)
      · rw [he] at h
        rcases List.mem_cons.mp h with rfl | h2
        · have ht0 : t0 ∈ splitComma rest := by rw [he]; exact List.mem_cons_self _ _
          obtain ⟨h44, hsub⟩ := ih ht0
          refine ⟨?_, ?_⟩
          · intro hx
            rcases List.mem_cons.mp hx with rfl | hx2
            · exact hb rfl
            · exact h44 hx2
          · intro x hx
            rcases List.mem_cons.mp hx with rfl | hx2
            · exact List.mem_cons_self _ _
            · exact List.mem_cons_of_mem _ (hsub x hx2)
        · have ht : t ∈ splitComma rest := by rw [he]; exact List.mem_cons_of_mem _ h2
          obtain ⟨h44, hsub⟩ := ih ht
          exact ⟨h44, fun x hx => List.mem_cons_of_mem _ (hsub x hx)⟩

lemma splitComma_append_comma {a : CStr} (rest : CStr) (h : 44 ∉ a) :
    splitComma (a ++ 44 :: rest) = a :: splitComma rest := by
  induction a with
  | nil =>
    rw [List.nil_append, splitComma, if_pos rfl]
  | cons b a ih =>
    have hb : b ≠ 44 := fun hb => h (hb ▸ List.mem_cons_self _ _)
    have ha : 44 ∉ a := fun ha => h (List.mem_cons_of_mem _ ha)
    rw [List.cons_append, splitComma, if_neg hb, ih ha]

lemma splitComma_no_comma {a : CStr} (h : 44 ∉ a) : splitComma a = [a] := by
  induction a with
  | nil => rfl
  | cons b a ih =>
    have hb : b ≠ 44 := fun hb => h (hb ▸ List.mem_cons_self _ _)
    have ha : 44 ∉ a := fun ha => h (List.mem_cons_of_mem _ ha)
    rw [splitComma, if_neg hb, ih ha]

lemma joinComma_cons {t : CStr} {ts : List CStr} (h : ts ≠ []) :
    joinComma (t :: ts) = t ++ 44 :: joinComma ts := by
  cases ts with
  | nil => exact absurd rfl h
  | cons t' ts' => rfl

lemma splitComma_joinComma {ts : List CStr} (hne : ts ≠ [])
    (h : ∀ t ∈ ts, 44 ∉ t) : splitComma (joinComma ts) = ts := by
  induction ts with
  | nil => exact absurd rfl hne
  | cons t ts ih =>
    cases ts with
    | nil => exact splitComma_no_comma (h t (List.mem_cons_self _ _))
    | cons t' ts' =>
      rw [joinComma_cons (by simp),
        splitComma_append_comma _ (h t (List.mem_cons_self _ _)),
        ih (by simp) (fun x hx => h x (List.mem_cons_of_mem _ hx))]

lemma trim_whitespace_subset {s : CStr} {b : Nat} (h : b ∈ trim_whitespace s) :
    b ∈ s := by
  unfold trim_whitespace str_rtrim str_ltrim at h
  have h1 := List.mem_reverse.mp h
  have h2 := mem_of_mem_dropWhile h1
  have h3 := List.mem_reverse.mp h2
  exact mem_of_mem_dropWhile h3

lemma normalize_tag_eq_map_of_token (tok : CStr) :
    normalize_tag (trim_whitespace tok) = (trim_whitespace tok).map lowerB := by
  unfold normalize_tag
  rw [trim_whitespace_idem]

lemma mem_parse_tags {line t : CStr} (h : t ∈ parse_tags line) :
    ∃ tok ∈ splitComma line, trim_whitespace tok ≠ [] ∧
      t = (trim_whitespace tok).map lowerB := by
  unfold parse_tags at h
  obtain ⟨tok, htok, hval⟩ := List.mem_filterMap.mp h
  by_cases he : trim_whitespace tok = []
  · simp only [he, if_pos] at hval
    cases hval
  · simp only [if_neg he] at hval
    obtain rfl := Option.some_injective _ hval
    exact ⟨tok, htok, he, normalize_tag_eq_map_of_token tok⟩

lemma parse_tags_good {line : CStr} : ∀ t ∈ parse_tags line, GoodTag t := by
  intro t h
  obtain ⟨tok, htok, hne, rfl⟩ := mem_parse_tags h
  obtain ⟨h44, -⟩ := mem_splitComma htok
  have h44' : 44 ∉ trim_whitespace tok := fun hx => h44 (trim_whitespace_subset hx)
  refine ⟨?_, ?_, ?_⟩
  · intro hx
    exact hne (List.map_eq_nil_iff.mp hx)
  · exact lowerB_not_mem_low (by norm_num) h44'
  · rw [← normalize_tag_eq_map_of_token, normalize_tag_idem]

lemma parse_tags_not_mem {line t : CStr} {v : Nat} (hv : v < 65)
    (hline : v ∉ line) (h : t ∈ parse_tags line) : v ∉ t := by
  obtain ⟨tok, htok, -, rfl⟩ := mem_parse_tags h
  obtain ⟨-, hsub⟩ := mem_splitComma htok
  have : v ∉ trim_whitespace tok :=
    fun hx => hline (hsub v (trim_whitespace_subset hx))
  exact lowerB_not_mem_low hv this

lemma filterMap_id_of_some {α : Type} (f : α → Option α) (l : List α)
    (h : ∀ x ∈ l, f x = some x) : l.filterMap f = l := by
  induction l with
  | nil => rfl
  | cons a l ih =>
    rw [List.filterMap_cons, h a (List.mem_cons_self _ _),
      ih (fun x hx => h x (List.mem_cons_of_mem _ hx))]

lemma parse_tags_joinComma {ts : List CStr} (h : ∀ t ∈ ts, GoodTag t) :
    parse_tags (joinComma ts) = ts := by
  cases hts : ts with
  | nil => rfl
  | cons t0 ts0 =>
    subst hts
    unfold parse_tags
    rw [splitComma_joinComma (by simp) (fun t ht => (h t ht).2.1)]
    apply filterMap_id_of_some
    intro x hx
    obtain ⟨hne, -, hfix⟩ := h x hx
    have htw : trim_whitespace x = x := trim_whitespace_of_normalize_fixed hfix
    simp only [htw, if_neg hne, hfix]

/-! ### trim_newline lemmas -/

lemma trim_newline_eq_self {s : CStr}
    (h : ∀ b, s.getLast? = some b → b ≠ 10 ∧ b ≠ 13) : trim_newline s = s := by
  unfold trim_newline
  rw [dropWhile_eq_self_of_head, List.reverse_reverse]
  cases hs : s.reverse with
  | nil => exact Or.inl rfl
  | cons b t =>
    refine Or.inr ⟨b, t, rfl, ?_⟩
    have hb : s.getLast? = some b := by
      rw [← List.head?_reverse, hs]; rfl
    obtain ⟨h10, h13⟩ := h b hb
    simp [h10, h13]

lemma trim_newline_getLast {s : CStr} :
    ∀ b, (trim_newline s).getLast? = some b → b ≠ 10 ∧ b ≠ 13 := by
  intro b hb
  unfold trim_newline at hb
  rw [← List.head?_reverse, List.reverse_reverse] at hb
  rcases dropWhile_head_not (fun b => b = 10 || b = 13) s.reverse with he | ⟨b', t', he, hp⟩
  · rw [he] at hb; cases hb
  · rw [he] at hb
    obtain rfl : b' = b := by simpa using hb
    simpa using hp

lemma mem_trim_newline {s : CStr} {b : Nat} (h : b ∈ trim_newline s) : b ∈ s := by
  unfold trim_newline at h
  exact List.mem_reverse.mp (mem_of_mem_dropWhile (List.mem_reverse.mp h))

lemma getLast?_drop_of_ne_nil {α : Type} {l : List α} {n : Nat}
    (h : l.drop n ≠ []) : (l.drop n).getLast? = l.getLast? := by
  obtain ⟨t, ht⟩ := List.drop_suffix n l
  conv_rhs => rw [← ht]
  exact (List.getLast?_append_of_ne_nil t h).symm

lemma str_rtrim_getLast (x : CStr) :
    ∀ b, (str_rtrim x).getLast? = some b → isspaceB b = false := by
  intro b hb
  unfold str_rtrim at hb
  rw [← List.head?_reverse, List.reverse_reverse] at hb
  rcases dropWhile_head_not isspaceB x.reverse with he | ⟨b', t', he, hp⟩
  · rw [he] at hb; cases hb
  · rw [he] at hb
    obtain rfl : b' = b := by simpa using hb
    exact hp

lemma goodTag_getLast {t : CStr} (h : GoodTag t) :
    ∀ b, t.getLast? = some b → isspaceB b = false := by
  intro b hb
  have htw : trim_whitespace t = t := trim_whitespace_of_normalize_fixed h.2.2
  have : str_rtrim (str_ltrim t) = t := htw
  rw [← this] at hb
  exact str_rtrim_getLast _ b hb

lemma mem_joinComma {ts : List CStr} {b : Nat} (h : b ∈ joinComma ts) :
    b = 44 ∨ ∃ t ∈ ts, b ∈ t := by
  induction ts with
  | nil => cases h
  | cons t ts ih =>
    cases ts with
    | nil =>
      exact Or.inr ⟨t, List.mem_cons_self _ _, h⟩
    | cons t' ts' =>
      rw [joinComma_cons (by simp)] at h
      rcases List.mem_append.mp h with h1 | h2
      · exact Or.inr ⟨t, List.mem_cons_self _ _, h1⟩
      · rcases List.mem_cons.mp h2 with rfl | h3
        · exact Or.inl rfl
        · rcases ih h3 with h4 | ⟨t2, ht2, hb2⟩
          · exact Or.inl h4
          · exact Or.inr ⟨t2, List.mem_cons_of_mem _ ht2, hb2⟩

lemma joinComma_ne_nil {ts : List CStr} (hne : ts ≠ []) (h : ∀ t ∈ ts, t ≠ []) :
    joinComma ts ≠ [] := by
  cases ts with
  | nil => exact absurd rfl hne
  | cons t ts =>
    cases ts with
    | nil => exact h t (List.mem_cons_self _ _)
    | cons t' ts' =>
      rw [joinComma_cons (by simp)]
      intro hx
      rcases List.append_eq_nil.mp hx with ⟨-, h2⟩
      cases h2

lemma joinComma_getLast {ts : List CStr} (h : ∀ t ∈ ts, GoodTag t) :
    ∀ b, (joinComma ts).getLast? = some b → isspaceB b = false ∨ b = 44 := by
  intro b hb
  induction ts with
  | nil => cases hb
  | cons t ts ih =>
    cases ts with
    | nil =>
      exact Or.inl (goodTag_getLast (h t (List.mem_cons_self _ _)) b hb)
    | cons t' ts' =>
      rw [joinComma_cons (by simp)] at hb
      have hne : joinComma (t' :: ts') ≠ [] :=
        joinComma_ne_nil (by simp)
          (fun x hx => (h x (List.mem_cons_of_mem _ hx)).1)
      rw [List.getLast?_append_of_ne_nil _ (by simp)] at hb
      rw [List.getLast?_cons] at hb
      rcases he : (joinComma (t' :: ts')).getLast? with _ | b'
      · exact absurd (List.getLast?_eq_none_iff.mp he) hne
      · rw [he] at hb
        simp only [Option.getD_some, Option.some_inj] at hb
        subst hb
        exact ih (fun x hx => h x (List.mem_cons_of_mem _ hx)) he

/-! ### intToStr and atoi lemmas -/

lemma natToStrGo_mem {fuel n : Nat} {l : List Nat} :
    ∀ b ∈ natToStrGo fuel n l, (48 ≤ b ∧ b ≤ 57) ∨ b ∈ l := by
  induction fuel generalizing n l with
  | zero =>
    intro b hb
    rw [natToStrGo] at hb
    rcases List.mem_cons.mp hb with rfl | hb2
    · left; omega
    · exact Or.inr hb2
  | succ fuel ih =>
    intro b hb
    rw [natToStrGo] at hb
    by_cases hn : n < 10
    · rw [if_pos hn] at hb
      rcases List.mem_cons.mp hb with rfl | hb2
      · left; omega
      · exact Or.inr hb2
    · rw [if_neg hn] at hb
      rcases ih b hb with h1 | h2
      · exact Or.inl h1
      · rcases List.mem_cons.mp h2 with rfl | h3
        · left; omega
        · exact Or.inr h3

lemma natToStrGo_head {fuel n : Nat} {l : List Nat} :
    ∃ b t, natToStrGo fuel n l = b :: t ∧ 48 ≤ b ∧ b ≤ 57 := by
  induction fuel generalizing n l with
  | zero => exact ⟨n % 10 + 48, l, rfl, by omega, by omega⟩
  | succ fuel ih =>
    rw [natToStrGo]
    by_cases hn : n < 10
    · rw [if_pos hn]
      exact ⟨n % 10 + 48, l, rfl, by omega, by omega⟩
    · rw [if_neg hn]
      exact ih

lemma natToStrGo_digitsVal {fuel : Nat} :
    ∀ n l a, n ≤ fuel →
      digitsVal (natToStrGo fuel n l) a = digitsVal l (a * 10 ^ (Nat.log 10 n + 1) + n) := by
  induction fuel with
  | zero =>
    intro n l a hn
    obtain rfl : n = 0 := by omega
    rw [natToStrGo, digitsVal]
    rw [if_pos (by norm_num)]
    norm_num
  | succ fuel ih =>
    intro n l a hn
    rw [natToStrGo]
    by_cases h10 : n < 10
    · rw [if_pos h10, digitsVal, if_pos (by simp; omega)]
      have hlog : Nat.log 10 n = 0 := Nat.log_eq_zero_iff.mpr (Or.inl h10)
      rw [hlog]
      norm_num
      congr 1
      omega
    · rw [if_neg h10]
      have hrec : n / 10 ≤ fuel := by omega
      rw [ih (n / 10) _ a hrec, digitsVal, if_pos (by simp; omega)]
      have hlog1 : Nat.log 10 (n / 10) = Nat.log 10 n - 1 := Nat.log_div_base 10 n
      have hlogpos : 0 < Nat.log 10 n := Nat.log_pos (by norm_num) (by omega)
      congr 1
      have hurw : n % 10 + 48 - 48 = n % 10 := by omega
      rw [hurw, hlog1]
      have hexp : Nat.log 10 n - 1 + 1 = Nat.log 10 n := by omega
      rw [hexp]
      have hmod : n / 10 * 10 + n % 10 = n := by omega
      have : a * 10 ^ Nat.log 10 n * 10 = a * 10 ^ (Nat.log 10 n + 1) := by ring
      calc (a * 10 ^ Nat.log 10 n + n / 10) * 10 + n % 10
          = a * 10 ^ Nat.log 10 n * 10 + (n / 10 * 10 + n % 10) := by ring
        _ = a * 10 ^ (Nat.log 10 n + 1) + n := by rw [hmod, this]

lemma digitsVal_natToStrGo_self (n : Nat) :
    digitsVal (natToStrGo n n []) 0 = n := by
  rw [natToStrGo_digitsVal n [] 0 le_rfl, digitsVal]
  omega

lemma atoiBody_cons (b : Nat) (rest : CStr) :
    atoiBody (b :: rest) =
      if b = 45 then -(digitsVal rest 0 : Int)
      else if b = 43 then (digitsVal rest 0 : Int)
      else (digitsVal (b :: rest) 0 : Int) := rfl

lemma atoi_intToStr {i : Int} (h : 0 ≤ i) : atoi (intToStr i) = i := by
  rw [intToStr, if_neg (by omega)]
  obtain ⟨b, t, he, hb1, hb2⟩ := @natToStrGo_head i.toNat i.toNat []
  rw [he, atoi]
  have hsp : isspaceB b = false := by
    rw [isspaceB, decide_eq_false_iff_not]
    omega
  rw [List.dropWhile_cons, if_neg (by simp [hsp]), atoiBody_cons]
  rw [if_neg (by omega), if_neg (by omega)]
  rw [← he, digitsVal_natToStrGo_self]
  omega

lemma mem_of_getLast_some {α : Type} {l : List α} {b : α}
    (h : l.getLast? = some b) : b ∈ l := by
  rw [← List.head?_reverse] at h
  rcases hr : l.reverse with _ | ⟨x, t⟩
  · rw [hr] at h; cases h
  · rw [hr] at h
    have hxb : x = b := by simpa using h
    have hm : x ∈ l.reverse := by rw [hr]; exact List.mem_cons_self _ _
    exact List.mem_reverse.mp (hxb ▸ hm)

lemma intToStr_getLast (i : Int) :
    ∀ b, (intToStr i).getLast? = some b → b ≠ 10 ∧ b ≠ 13 := by
  intro b hb
  have hmem : b ∈ intToStr i := mem_of_getLast_some hb
  rw [intToStr] at hmem
  split at hmem
  · rcases List.mem_cons.mp hmem with rfl | h2
    · omega
    · rcases natToStrGo_mem b h2 with h3 | h4
      · omega
      · cases h4
  · rcases natToStrGo_mem b hmem with h3 | h4
    · omega
    · cases h4

lemma intToStr_not_mem_nl (i : Int) : 10 ∉ intToStr i ∧ 0 ∉ intToStr i := by
  constructor <;> intro hmem <;> rw [intToStr] at hmem <;> split at hmem
  · rcases List.mem_cons.mp hmem with h1 | h2
    · omega
    · rcases natToStrGo_mem _ h2 with h3 | h4
      · omega
      · cases h4
  · rcases natToStrGo_mem _ hmem with h3 | h4
    · omega
    · cases h4
  · rcases List.mem_cons.mp hmem with h1 | h2
    · omega
    · rcases natToStrGo_mem _ h2 with h3 | h4
      · omega
      · cases h4
  · rcases natToStrGo_mem _ hmem with h3 | h4
    · omega
    · cases h4

/-! ### Tag map lemmas -/

lemma lookupList_nil (t : CStr) : lookupList [] t = [] := rfl

lemma lookupList_cons (e : CStr × List Int) (es : List (CStr × List Int)) (t : CStr) :
    lookupList (e :: es) t = if e.1 = t then e.2 else lookupList es t := by
  unfold lookupList
  by_cases h : e.1 = t
  · simp [List.find?_cons, h]
  · simp [List.find?_cons, h]

lemma lookupList_eq_nil_of_not_key {m : List (CStr × List Int)} {t : CStr}
    (h : t ∉ m.map Prod.fst) : lookupList m t = [] := by
  induction m with
  | nil => rfl
  | cons e es ih =>
    rw [lookupList_cons]
    rw [List.map_cons, List.mem_cons] at h
    push_neg at h
    rw [if_neg (fun hx => h.1 hx.symm)]
    exact ih h.2

lemma lookupList_of_mem {m : List (CStr × List Int)} {e : CStr × List Int}
    (hk : (m.map Prod.fst).Nodup) (he : e ∈ m) : lookupList m e.1 = e.2 := by
  induction m with
  | nil => cases he
  | cons e0 es ih =>
    rw [List.map_cons, List.nodup_cons] at hk
    rcases List.mem_cons.mp he with rfl | he2
    · rw [lookupList_cons, if_pos rfl]
    · have hne : e0.1 ≠ e.1 := by
        intro hx
        exact hk.1 (hx ▸ List.mem_map_of_mem Prod.fst he2)
      rw [lookupList_cons, if_neg hne]
      exact ih hk.2 he2

lemma tag_add_lookup_self (m : List (CStr × List Int)) (t : CStr) (cid : Int) :
    lookupList (tag_add_card m t cid) t = cid :: lookupList m t := by
  induction m with
  | nil =>
    rw [tag_add_card, lookupList_cons, if_pos rfl, lookupList_nil]
  | cons e es ih =>
    rw [tag_add_card]
    by_cases h : e.1 = t
    · rw [if_pos h, lookupList_cons, lookupList_cons]
      simp only [if_pos h]
    · rw [if_neg h, lookupList_cons, lookupList_cons, if_neg h, if_neg h, ih]

lemma tag_add_lookup_ne (m : List (CStr × List Int)) {t t' : CStr} (cid : Int)
    (h : t' ≠ t) : lookupList (tag_add_card m t cid) t' = lookupList m t' := by
  induction m with
  | nil =>
    rw [tag_add_card, lookupList_cons, if_neg (fun hx => h hx.symm), lookupList_nil]
  | cons e es ih =>
    rw [tag_add_card]
    by_cases he : e.1 = t
    · rw [if_pos he, lookupList_cons, lookupList_cons]
      have hne : ¬ e.1 = t' := fun hx => h ((he ▸ hx : t = t').symm)
      simp only [if_neg hne]
    · rw [if_neg he, lookupList_cons, lookupList_cons, ih]

lemma tag_add_keys_sub (m : List (CStr × List Int)) (t : CStr) (cid : Int) :
    ∀ k ∈ (tag_add_card m t cid).map Prod.fst, k ∈ m.map Prod.fst ∨ k = t := by
  induction m with
  | nil =>
    intro k hk
    rw [tag_add_card] at hk
    simp at hk
    exact Or.inr hk
  | cons e es ih =>
    intro k hk
    rw [tag_add_card] at hk
    split at hk
    · rename_i he
      simp only [List.map_cons, List.mem_cons] at hk ⊢
      rcases hk with rfl | hk2
      · exact Or.inl (Or.inl rfl)
      · exact Or.inl (Or.inr hk2)
    · rename_i he
      simp only [List.map_cons, List.mem_cons] at hk ⊢
      rcases hk with rfl | hk2
      · exact Or.inl (Or.inl rfl)
      · rcases ih k hk2 with h1 | h2
        · exact Or.inl (Or.inr h1)
        · exact Or.inr h2

lemma tag_add_keys_nodup {m : List (CStr × List Int)} (t : CStr) (cid : Int)
    (h : (m.map Prod.fst).Nodup) : ((tag_add_card m t cid).map Prod.fst).Nodup := by
  induction m with
  | nil => simp [tag_add_card]
  | cons e es ih =>
    rw [tag_add_card]
    by_cases he : e.1 = t
    · rw [if_pos he]
      exact h
    · rw [if_neg he]
      rw [List.map_cons, List.nodup_cons] at h ⊢
      refine ⟨?_, ih h.2⟩
      intro hmem
      rcases tag_add_keys_sub es t cid _ hmem with h1 | h2
      · exact h.1 h1
      · exact he h2

lemma tag_add_buckets_ne {m : List (CStr × List Int)} (t : CStr) (cid : Int)
    (h : ∀ e ∈ m, e.2 ≠ []) : ∀ e ∈ tag_add_card m t cid, e.2 ≠ [] := by
  induction m with
  | nil =>
    intro e he
    rw [tag_add_card] at he
    rcases List.mem_cons.mp he with rfl | h2
    · simp
    · cases h2
  | cons e0 es ih =>
    intro e he
    rw [tag_add_card] at he
    split at he
    · rcases List.mem_cons.mp he with rfl | h2
      · simp
      · exact h e (List.mem_cons_of_mem _ h2)
    · rcases List.mem_cons.mp he with rfl | h2
      · exact h e (List.mem_cons_self _ _)
      · exact ih (fun x hx => h x (List.mem_cons_of_mem _ hx)) e h2

lemma regTags_lookup (ts : List CStr) (cid : Int) (m : List (CStr × List Int)) (t : CStr) :
    lookupList (ts.foldl (fun m t => tag_add_card m t cid) m) t =
      List.replicate (ts.count t) cid ++ lookupList m t := by
  induction ts generalizing m with
  | nil => simp
  | cons t0 ts ih =>
    rw [List.foldl_cons, ih]
    by_cases h : t0 = t
    · subst h
      rw [tag_add_lookup_self, List.count_cons_self, List.replicate_succ']
      simp
    · rw [tag_add_lookup_ne _ _ (Ne.symm h), List.count_cons_of_ne (Ne.symm h)]

lemma regTags_keys_nodup (ts : List CStr) (cid : Int) {m : List (CStr × List Int)}
    (h : (m.map Prod.fst).Nodup) :
    ((ts.foldl (fun m t => tag_add_card m t cid) m).map Prod.fst).Nodup := by
  induction ts generalizing m with
  | nil => exact h
  | cons t0 ts ih => exact ih (tag_add_keys_nodup t0 cid h)

lemma regTags_buckets_ne (ts : List CStr) (cid : Int) {m : List (CStr × List Int)}
    (h : ∀ e ∈ m, e.2 ≠ []) :
    ∀ e ∈ ts.foldl (fun m t => tag_add_card m t cid) m, e.2 ≠ [] := by
  induction ts generalizing m with
  | nil => exact h
  | cons t0 ts ih => exact ih (tag_add_buckets_ne t0 cid h)

lemma tag_remove_one_lookup_self {m : List (CStr × List Int)} (t : CStr) (cid : Int)
    (hk : (m.map Prod.fst).Nodup) :
    lookupList (tag_remove_one m t cid) t = (lookupList m t).erase cid := by
  induction m with
  | nil => rfl
  | cons e es ih =>
    rw [List.map_cons, List.nodup_cons] at hk
    rw [tag_remove_one]
    by_cases he : e.1 = t
    · rw [if_pos he]
      simp only
      by_cases hemp : e.2.erase cid = []
      · rw [if_pos hemp, lookupList_cons, if_pos he, hemp]
        apply lookupList_eq_nil_of_not_key
        rw [← he]
        exact hk.1
      · rw [if_neg hemp, lookupList_cons, lookupList_cons]
        simp only [if_pos he]
    · rw [if_neg he, lookupList_cons, lookupList_cons, if_neg he, if_neg he, ih hk.2]

lemma tag_remove_one_lookup_ne (m : List (CStr × List Int)) {t t' : CStr} (cid : Int)
    (h : t' ≠ t) : lookupList (tag_remove_one m t cid) t' = lookupList m t' := by
  induction m with
  | nil => rfl
  | cons e es ih =>
    rw [tag_remove_one]
    by_cases he : e.1 = t
    · rw [if_pos he]
      simp only
      have hne : ¬ e.1 = t' := fun hx => h ((he ▸ hx : t = t').symm)
      by_cases hemp : e.2.erase cid = []
      · rw [if_pos hemp, lookupList_cons, if_neg hne]
      · rw [if_neg hemp, lookupList_cons, lookupList_cons, if_neg hne, if_neg hne]
    · rw [if_neg he, lookupList_cons, lookupList_cons, ih]

lemma tag_remove_one_keys_sub (m : List (CStr × List Int)) (t : CStr) (cid : Int) :
    ∀ k ∈ (tag_remove_one m t cid).map Prod.fst, k ∈ m.map Prod.fst := by
  induction m with
  | nil => intro k hk; cases hk
  | cons e es ih =>
    intro k hk
    rw [tag_remove_one] at hk
    split at hk
    · rename_i he
      simp only at hk
      split at hk
      · exact List.mem_cons_of_mem _ hk
      · simp only [List.map_cons, List.mem_cons] at hk ⊢
        exact hk
    · simp only [List.map_cons, List.mem_cons] at hk ⊢
      rcases hk with rfl | hk2
      · exact Or.inl rfl
      · exact Or.inr (ih k hk2)

lemma tag_remove_one_keys_nodup {m : List (CStr × List Int)} (t : CStr) (cid : Int)
    (hk : (m.map Prod.fst).Nodup) :
    ((tag_remove_one m t cid).map Prod.fst).Nodup := by
  induction m with
  | nil => exact hk
  | cons e es ih =>
    rw [List.map_cons, List.nodup_cons] at hk
    rw [tag_remove_one]
    split
    · simp only
      split
      · exact hk.2
      · rw [List.map_cons, List.nodup_cons]
        exact ⟨hk.1, hk.2⟩
    · rw [List.map_cons, List.nodup_cons]
      refine ⟨?_, ih hk.2⟩
      intro hmem
      exact hk.1 (tag_remove_one_keys_sub es t cid _ hmem)

lemma tag_remove_one_buckets_ne {m : List (CStr × List Int)} (t : CStr) (cid : Int)
    (h : ∀ e ∈ m, e.2 ≠ []) : ∀ e ∈ tag_remove_one m t cid, e.2 ≠ [] := by
  induction m with
  | nil => exact h
  | cons e0 es ih =>
    intro e he
    rw [tag_remove_one] at he
    split at he
    · simp only at he
      split at he
      · exact h e (List.mem_cons_of_mem _ he)
      · rcases List.mem_cons.mp he with rfl | h2
        · rename_i hemp
          exact hemp
        · exact h e (List.mem_cons_of_mem _ h2)
    · rcases List.mem_cons.mp he with rfl | h2
      · exact h e (List.mem_cons_self _ _)
      · exact ih (fun x hx => h x (List.mem_cons_of_mem _ hx)) e h2

lemma remTags_count (ts : List CStr) (cid : Int) {m : List (CStr × List Int)}
    (hk : (m.map Prod.fst).Nodup) (t : CStr) (i : Int) :
    (lookupList (ts.foldl (fun m t => tag_remove_one m t cid) m) t).count i =
      (lookupList m t).count i - (if i = cid then ts.count t else 0) := by
  induction ts generalizing m with
  | nil => simp
  | cons t0 ts ih =>
    rw [List.foldl_cons, ih (tag_remove_one_keys_nodup t0 cid hk)]
    by_cases h : t0 = t
    · subst h
      rw [tag_remove_one_lookup_self t0 cid hk]
      by_cases hi : i = cid
      · subst hi
        rw [List.count_erase_self, List.count_cons_self, if_pos rfl, if_pos rfl]
        omega
      · rw [List.count_erase_of_ne hi, if_neg hi, if_neg hi]
    · rw [tag_remove_one_lookup_ne _ _ (Ne.symm h), List.count_cons_of_ne (Ne.symm h)]

lemma remTags_keys_nodup (ts : List CStr) (cid : Int) {m : List (CStr × List Int)}
    (hk : (m.map Prod.fst).Nodup) :
    ((ts.foldl (fun m t => tag_remove_one m t cid) m).map Prod.fst).Nodup := by
  induction ts generalizing m with
  | nil => exact hk
  | cons t0 ts ih => exact ih (tag_remove_one_keys_nodup t0 cid hk)

lemma remTags_buckets_ne (ts : List CStr) (cid : Int) {m : List (CStr × List Int)}
    (h : ∀ e ∈ m, e.2 ≠ []) :
    ∀ e ∈ ts.foldl (fun m t => tag_remove_one m t cid) m, e.2 ≠ [] := by
  induction ts generalizing m with
  | nil => exact h
  | cons t0 ts ih => exact ih (tag_remove_one_buckets_ne t0 cid h)

/-! ### Card store lemmas -/

lemma find_card_cons (c : Card) (cs : List Card) (i : Int) :
    (c :: cs).find? (fun c => c.id == i) =
      if c.id = i then some c else cs.find? (fun c => c.id == i) := by
  by_cases h : c.id = i
  · simp [List.find?_cons, h]
  · simp [List.find?_cons, h]

lemma find_card_eq_none {cs : List Card} {i : Int} (h : i ∉ cs.map Card.id) :
    cs.find? (fun c => c.id == i) = none := by
  rw [List.find?_eq_none]
  intro c hc
  simp only [beq_iff_eq]
  intro hx
  exact h (hx ▸ List.mem_map_of_mem Card.id hc)

lemma find_card_eq_some {cs : List Card} {i : Int} {c : Card}
    (h : cs.find? (fun c => c.id == i) = some c) : c ∈ cs ∧ c.id = i := by
  refine ⟨List.mem_of_find?_eq_some h, ?_⟩
  have := List.find?_some h
  simpa using this

lemma getCard_not_mem {cs : List Card} {i : Int} (h : i ∉ cs.map Card.id) :
    getCard cs i = cardDefault := by
  unfold getCard
  rw [find_card_eq_none h]

lemma getCard_cons (c : Card) (cs : List Card) (i : Int) :
    getCard (c :: cs) i = if c.id = i then c else getCard cs i := by
  unfold getCard
  rw [find_card_cons]
  by_cases h : c.id = i
  · rw [if_pos h, if_pos h]
  · rw [if_neg h, if_neg h]

lemma getCard_mem {cs : List Card} {i : Int} (h : i ∈ cs.map Card.id) :
    getCard cs i ∈ cs ∧ (getCard cs i).id = i := by
  unfold getCard
  rcases he : cs.find? (fun c => c.id == i) with _ | c
  · exfalso
    obtain ⟨c, hc, hce⟩ := List.mem_map.mp h
    rw [List.find?_eq_none] at he
    have := he c hc
    simp [hce] at this
  · rw [he]
    exact find_card_eq_some he

lemma find_card_self {cs : List Card} {c : Card}
    (hnd : (cs.map Card.id).Nodup) (hc : c ∈ cs) :
    cs.find? (fun d => d.id == c.id) = some c := by
  induction cs with
  | nil => cases hc
  | cons c0 cs ih =>
    rw [List.map_cons, List.nodup_cons] at hnd
    rcases List.mem_cons.mp hc with rfl | h2
    · rw [find_card_cons, if_pos rfl]
    · have hne : c0.id ≠ c.id := by
        intro hx
        exact hnd.1 (hx ▸ List.mem_map_of_mem Card.id h2)
      rw [find_card_cons, if_neg hne]
      exact ih hnd.2 h2

lemma getCard_of_mem {cs : List Card} {c : Card}
    (hnd : (cs.map Card.id).Nodup) (hc : c ∈ cs) : getCard cs c.id = c := by
  unfold getCard
  rw [find_card_self hnd hc]

/-! ### updateCard lemmas -/

lemma updateCard_not_mem {cs : List Card} {i : Int} (f : Card → Card)
    (h : i ∉ cs.map Card.id) : updateCard cs i f = cs := by
  induction cs with
  | nil => rfl
  | cons c cs ih =>
    rw [List.map_cons, List.mem_cons] at h
    push_neg at h
    rw [updateCard, if_neg (fun hx => h.1 hx.symm), ih h.2]

lemma updateCard_map_shape {cs : List Card} {i : Int} {f : Card → Card}
    (hf : ∀ c, shape (f c) = shape c) :
    (updateCard cs i f).map shape = cs.map shape := by
  induction cs with
  | nil => rfl
  | cons c cs ih =>
    rw [updateCard]
    split
    · rw [List.map_cons, List.map_cons, hf]
    · rw [List.map_cons, List.map_cons, ih]

lemma shape_id (c : Card) : (shape c).1 = c.id := rfl

lemma map_id_of_map_shape {cs cs' : List Card}
    (h : cs.map shape = cs'.map shape) : cs.map Card.id = cs'.map Card.id := by
  have h1 : (cs.map shape).map Prod.fst = (cs'.map shape).map Prod.fst := by rw [h]
  rw [List.map_map, List.map_map] at h1
  exact h1

lemma updateCard_map_id {cs : List Card} {i : Int} {f : Card → Card}
    (hf : ∀ c, (f c).id = c.id) :
    (updateCard cs i f).map Card.id = cs.map Card.id := by
  induction cs with
  | nil => rfl
  | cons c cs ih =>
    rw [updateCard]
    split
    · rw [List.map_cons, List.map_cons, hf]
    · rw [List.map_cons, List.map_cons, ih]

lemma getCard_updateCard_ne {cs : List Card} {i j : Int} {f : Card → Card}
    (hf : ∀ c, (f c).id = c.id) (hne : j ≠ i) :
    getCard (updateCard cs i f) j = getCard cs j := by
  induction cs with
  | nil => rfl
  | cons c cs ih =>
    rw [updateCard]
    split
    · rename_i hc
      have hx : ¬ (f c).id = j := by rw [hf, hc]; exact fun hx => hne hx.symm
      have hx2 : ¬ c.id = j := by rw [hc]; exact fun hx => hne hx.symm
      rw [getCard_cons, getCard_cons, if_neg hx, if_neg hx2]
    · by_cases hcj : c.id = j
      · rw [getCard_cons, getCard_cons, if_pos hcj, if_pos hcj]
      · rw [getCard_cons, getCard_cons, if_neg hcj, if_neg hcj, ih]

lemma getCard_updateCard_self {cs : List Card} {i : Int} {f : Card → Card}
    (hf : ∀ c, (f c).id = c.id) (hmem : i ∈ cs.map Card.id) :
    getCard (updateCard cs i f) i = f (getCard cs i) := by
  induction cs with
  | nil => cases hmem
  | cons c cs ih =>
    rw [updateCard]
    split
    · rename_i hc
      have hx : (f c).id = i := by rw [hf, hc]
      rw [getCard_cons, getCard_cons, if_pos hx, if_pos hc]
    · rename_i hc
      rw [List.map_cons, List.mem_cons] at hmem
      rcases hmem with h1 | h2
      · exact absurd h1.symm hc
      · rw [getCard_cons, getCard_cons, if_neg hc, if_neg hc]
        exact ih h2

lemma mem_updateCard {cs : List Card} {i : Int} {f : Card → Card}
    (hmem : i ∈ cs.map Card.id) :
    ∀ c' ∈ updateCard cs i f, c' ∈ cs ∨ c' = f (getCard cs i) := by
  induction cs with
  | nil => intro c' h; cases h
  | cons c cs ih =>
    intro c' h
    rw [updateCard] at h
    split at h
    · rename_i hc
      rcases List.mem_cons.mp h with rfl | h2
      · right
        rw [getCard_cons, if_pos hc]
      · exact Or.inl (List.mem_cons_of_mem _ h2)
    · rename_i hc
      rw [List.map_cons, List.mem_cons] at hmem
      rcases List.mem_cons.mp h with rfl | h2
      · exact Or.inl (List.mem_cons_self _ _)
      · rcases hmem with h1 | h3
        · exact absurd h1.symm hc
        · rcases ih h3 c' h2 with h4 | h5
          · exact Or.inl (List.mem_cons_of_mem _ h4)
          · right
            rw [getCard_cons, if_neg hc]
            exact h5

/-! ### eraseCardById and countTagIn lemmas -/

lemma mem_eraseCardById {cs : List Card} {i : Int} :
    ∀ c ∈ eraseCardById cs i, c ∈ cs := by
  induction cs with
  | nil => intro c h; cases h
  | cons c0 cs ih =>
    intro c h
    rw [eraseCardById] at h
    split at h
    · exact List.mem_cons_of_mem _ h
    · rcases List.mem_cons.mp h with rfl | h2
      · exact List.mem_cons_self _ _
      · exact List.mem_cons_of_mem _ (ih c h2)

lemma eraseCardById_map_id (cs : List Card) (i : Int) :
    (eraseCardById cs i).map Card.id = (cs.map Card.id).erase i := by
  induction cs with
  | nil => rfl
  | cons c cs ih =>
    rw [eraseCardById, List.map_cons, List.erase_cons]
    split
    · rename_i hc
      rw [if_pos (by simp [hc])]
    · rename_i hc
      rw [if_neg (by simp [hc]), List.map_cons, ih]

lemma countTagIn_cons (c : Card) (cs : List Card) (i : Int) (t : CStr) :
    countTagIn (c :: cs) i t =
      if c.id = i then c.tags.count t else countTagIn cs i t := by
  unfold countTagIn
  rw [find_card_cons]
  by_cases h : c.id = i
  · rw [if_pos h, if_pos h]
  · rw [if_neg h, if_neg h]

lemma countTagIn_not_mem {cs : List Card} {i : Int} (h : i ∉ cs.map Card.id)
    (t : CStr) : countTagIn cs i t = 0 := by
  unfold countTagIn
  rw [find_card_eq_none h]

lemma countTagIn_erase {cs : List Card} (hnd : (cs.map Card.id).Nodup)
    (j i : Int) (t : CStr) :
    countTagIn (eraseCardById cs j) i t = if i = j then 0 else countTagIn cs i t := by
  induction cs with
  | nil =>
    rw [eraseCardById]
    split <;> rfl
  | cons c cs ih =>
    rw [List.map_cons, List.nodup_cons] at hnd
    rw [eraseCardById]
    split
    · rename_i hc
      by_cases hij : i = j
      · rw [if_pos hij, hij, ← hc]
        exact countTagIn_not_mem hnd.1 t
      · rw [if_neg hij, countTagIn_cons, if_neg (by rw [hc]; exact fun hx => hij hx.symm)]
    · rename_i hc
      by_cases hij : i = j
      · rw [if_pos hij, countTagIn_cons, if_neg (by rw [hij]; exact hc), ih hnd.2, if_pos hij]
      · rw [if_neg hij, countTagIn_cons, countTagIn_cons, ih hnd.2, if_neg hij]

lemma countTagIn_of_map_shape {cs cs' : List Card}
    (h : cs.map shape = cs'.map shape) (i : Int) (t : CStr) :
    countTagIn cs i t = countTagIn cs' i t := by
  induction cs generalizing cs' with
  | nil =>
    cases cs' with
    | nil => rfl
    | cons c' cs' => cases h
  | cons c cs ih =>
    cases cs' with
    | nil => cases h
    | cons c' cs' =>
      rw [List.map_cons, List.map_cons] at h
      have hhead : shape c = shape c' := by
        have := congrArg List.head? h
        simpa using this
      have htail : cs.map shape = cs'.map shape := by
        have := congrArg List.tail h
        simpa using this
      have hid : c.id = c'.id := by
        have := congrArg Prod.fst hhead
        simpa [shape] using this
      have htags : c.tags = c'.tags := by
        have := congrArg (fun x => x.2.2.2) hhead
        simpa [shape] using this
      rw [countTagIn_cons, countTagIn_cons, hid, htags, ih htail]

lemma mem_shape_exists {cs cs' : List Card}
    (h : cs.map shape = cs'.map shape) :
    ∀ c' ∈ cs', ∃ c ∈ cs, shape c = shape c' := by
  intro c' hc'
  have : shape c' ∈ cs'.map shape := List.mem_map_of_mem shape hc'
  rw [← h] at this
  obtain ⟨c, hc, hce⟩ := List.mem_map.mp this
  exact ⟨c, hc, hce⟩

/-! ### Scan loop lemmas -/

lemma decDue_id (c : Card) : (decDue c).id = c.id := rfl

lemma decDue_shape (c : Card) : shape (decDue c) = shape c := rfl

lemma scanGo_map_shape (fuel : Nat) (qu : List Int) (cs : List Card) :
    ((scanGo fuel qu cs).2.2.1).map shape = cs.map shape := by
  induction fuel generalizing qu cs with
  | zero => rfl
  | succ fuel ih =>
    cases qu with
    | nil => rfl
    | cons cid rest =>
      rw [scanGo]
      by_cases hd : (getCard cs cid).due_in > 0
      · rw [if_pos hd]
        simp only
        rw [ih]
        exact updateCard_map_shape decDue_shape
      · rw [if_neg hd]

lemma scanGo_perm_some {fuel : Nat} {qu q1 : List Int} {cs cs1 : List Card}
    {cid : Int} {p : Nat}
    (h : scanGo fuel qu cs = (some cid, q1, cs1, p)) : (cid :: q1).Perm qu := by
  induction fuel generalizing qu cs q1 cs1 p with
  | zero =>
    rw [scanGo] at h
    exact absurd (congrArg (fun r => r.1) h) (by simp)
  | succ fuel ih =>
    cases qu with
    | nil =>
      rw [scanGo] at h
      exact absurd (congrArg (fun r => r.1) h) (by simp)
    | cons cid0 rest =>
      rw [scanGo] at h
      by_cases hd : (getCard cs cid0).due_in > 0
      · rw [if_pos hd] at h
        rcases hr : scanGo fuel (rest ++ [cid0]) (updateCard cs cid0 decDue)
          with ⟨o, q', cs'', p'⟩
        rw [hr] at h
        simp only [Prod.mk.injEq] at h
        obtain ⟨rfl, rfl, rfl, -⟩ := h
        exact (ih hr).trans (List.perm_append_singleton _ _)
      · rw [if_neg hd] at h
        simp only [Prod.mk.injEq, Option.some.injEq] at h
        obtain ⟨rfl, rfl, rfl, -⟩ := h
        exact List.Perm.refl _

lemma scanGo_perm_none {fuel : Nat} {qu q1 : List Int} {cs cs1 : List Card} {p : Nat}
    (h : scanGo fuel qu cs = (none, q1, cs1, p)) : q1.Perm qu := by
  induction fuel generalizing qu cs q1 cs1 p with
  | zero =>
    rw [scanGo] at h
    simp only [Prod.mk.injEq] at h
    obtain ⟨-, rfl, rfl, -⟩ := h
    exact List.Perm.refl _
  | succ fuel ih =>
    cases qu with
    | nil =>
      rw [scanGo] at h
      simp only [Prod.mk.injEq] at h
      obtain ⟨-, rfl, rfl, -⟩ := h
      exact List.Perm.refl _
    | cons cid0 rest =>
      rw [scanGo] at h
      by_cases hd : (getCard cs cid0).due_in > 0
      · rw [if_pos hd] at h
        rcases hr : scanGo fuel (rest ++ [cid0]) (updateCard cs cid0 decDue)
          with ⟨o, q', cs'', p'⟩
        rw [hr] at h
        simp only [Prod.mk.injEq] at h
        obtain ⟨rfl, rfl, rfl, -⟩ := h
        exact (ih hr).trans (List.perm_append_singleton _ _)
      · rw [if_neg hd] at h
        exact absurd (congrArg (fun r => r.1) h) (by simp)

lemma scanGo_sched {fuel : Nat} {qu : List Int} {cs : List Card}
    (h : ∀ c ∈ cs, 1 ≤ c.interval ∧ 0 ≤ c.due_in) :
    ∀ c ∈ (scanGo fuel qu cs).2.2.1, 1 ≤ c.interval ∧ 0 ≤ c.due_in := by
  induction fuel generalizing qu cs with
  | zero => exact h
  | succ fuel ih =>
    cases qu with
    | nil => exact h
    | cons cid rest =>
      rw [scanGo]
      by_cases hd : (getCard cs cid).due_in > 0
      · rw [if_pos hd]
        simp only
        apply ih
        have hmem : cid ∈ cs.map Card.id := by
          by_contra hmem
          rw [getCard_not_mem hmem] at hd
          simp [cardDefault] at hd
        intro c hc
        rcases mem_updateCard hmem c hc with h1 | h2
        · exact h c h1
        · have hg := h _ (getCard_mem hmem).1
          rw [h2]
          refine ⟨hg.1, ?_⟩
          simp only [decDue]
          omega
      · rw [if_neg hd]
        exact h

lemma decAll_map_id (xs : List Int) (cs : List Card) :
    (xs.foldl (fun a i => updateCard a i decDue) cs).map Card.id = cs.map Card.id := by
  induction xs generalizing cs with
  | nil => rfl
  | cons x xs ih =>
    rw [List.foldl_cons, ih, updateCard_map_id decDue_id]

lemma decAll_getCard_not_mem {xs : List Int} {cs : List Card} {j : Int} (hj : j ∉ xs) :
    getCard (xs.foldl (fun a i => updateCard a i decDue) cs) j = getCard cs j := by
  induction xs generalizing cs with
  | nil => rfl
  | cons x xs ih =>
    rw [List.mem_cons] at hj
    push_neg at hj
    rw [List.foldl_cons, ih hj.2, getCard_updateCard_ne decDue_id hj.1]

lemma decAll_getCard_mem {xs : List Int} {cs : List Card} (hnd : xs.Nodup)
    (hmem : ∀ i ∈ xs, i ∈ cs.map Card.id) :
    ∀ i ∈ xs,
      getCard (xs.foldl (fun a i => updateCard a i decDue) cs) i = decDue (getCard cs i) := by
  induction xs generalizing cs with
  | nil => intro i h; cases h
  | cons x xs ih =>
    rw [List.nodup_cons] at hnd
    intro i hi
    rw [List.foldl_cons]
    rcases List.mem_cons.mp hi with rfl | h2
    · rw [decAll_getCard_not_mem hnd.1,
        getCard_updateCard_self decDue_id (hmem i (List.mem_cons_self _ _))]
    · have hix : i ≠ x := fun hx => hnd.1 (hx ▸ h2)
      rw [ih hnd.2 (fun k hk => by
          rw [updateCard_map_id decDue_id]
          exact hmem k (List.mem_cons_of_mem _ hk)) i h2,
        getCard_updateCard_ne decDue_id hix]

lemma scanGo_finds {xs : List Int} {cid : Int} {cs : List Card} {fuel : Nat} (ys : List Int)
    (hfuel : xs.length < fuel)
    (hnd : xs.Nodup) (hcx : cid ∉ xs)
    (hmem : ∀ i ∈ xs, i ∈ cs.map Card.id)
    (hpos : ∀ i ∈ xs, 0 < (getCard cs i).due_in)
    (hdue : ¬ (getCard cs cid).due_in > 0) :
    scanGo fuel (xs ++ cid :: ys) cs =
      (some cid, ys ++ xs,
       xs.foldl (fun a i => updateCard a i decDue) cs,
       xs.length + 1) := by
  induction xs generalizing ys cs fuel with
  | nil =>
    cases fuel with
    | zero => omega
    | succ fuel =>
      rw [List.nil_append, scanGo, if_neg hdue]
      simp
  | cons x xs ih =>
    cases fuel with
    | zero => simp at hfuel
    | succ fuel =>
      rw [List.nodup_cons] at hnd
      rw [List.mem_cons] at hcx
      push_neg at hcx
      rw [List.cons_append, scanGo, if_pos (hpos x (List.mem_cons_self _ _))]
      have hql : (xs ++ cid :: ys) ++ [x] = xs ++ cid :: (ys ++ [x]) := by simp
      have hfuel' : xs.length < fuel := by
        simp only [List.length_cons] at hfuel
        omega
      have hmem' : ∀ i ∈ xs, i ∈ (updateCard cs x decDue).map Card.id := fun i hi => by
        rw [updateCard_map_id decDue_id]
        exact hmem i (List.mem_cons_of_mem _ hi)
      have hpos' : ∀ i ∈ xs, 0 < (getCard (updateCard cs x decDue) i).due_in := fun i hi => by
        have hix : i ≠ x := fun hx => hnd.1 (hx ▸ hi)
        rw [getCard_updateCard_ne decDue_id hix]
        exact hpos i (List.mem_cons_of_mem _ hi)
      have hdue' : ¬ (getCard (updateCard cs x decDue) cid).due_in > 0 := by
        rw [getCard_updateCard_ne decDue_id hcx.1]
        exact hdue
      have hrec := ih (ys ++ [x]) hfuel' hnd.2 hcx.2 hmem' hpos' hdue'
      rw [hql, hrec]
      simp only [Prod.mk.injEq]
      refine ⟨trivial, by simp, ?_, by simp⟩
      rw [List.foldl_cons]

/-! ### Invariant preservation -/

lemma create_card_snd (q a : CStr) (tks : List CStr) (s : AppState) :
    (create_card q a tks s).2 =
      { s with
        cards := ⟨s.next_card_id, q, a, tks, 1, 0⟩ :: s.cards,
        next_card_id := s.next_card_id + 1,
        tag_map := tks.foldl (fun m t => tag_add_card m t s.next_card_id) s.tag_map } := rfl

lemma create_card_fst (q a : CStr) (tks : List CStr) (s : AppState) :
    (create_card q a tks s).1 = s.next_card_id := rfl

lemma stInv_create {s : AppState} (hInv : StInv s) {q a : CStr} {tks : List CStr}
    (hgood : ∀ t ∈ tks, GoodTag t) :
    StInv (create_card q a tks s).2 := by
  obtain ⟨hnp, hip, hil, hin, hqs, hqn, hsc, htg, hkn, hbn, htc⟩ := hInv
  rw [create_card_snd]
  have hfresh : s.next_card_id ∉ s.cards.map Card.id := by
    intro hmem
    obtain ⟨c, hc, hce⟩ := List.mem_map.mp hmem
    exact absurd (hce ▸ hil c hc) (by omega)
  refine ⟨?_, ?_, ?_, ?_, ?_, ?_, ?_, ?_, ?_, ?_, ?_⟩
  · simp only
    omega
  · intro c hc
    rcases List.mem_cons.mp hc with rfl | h2
    · exact hnp
    · exact hip c h2
  · intro c hc
    rcases List.mem_cons.mp hc with rfl | h2
    · simp only
      omega
    · have := hil c h2
      simp only
      omega
  · unfold cardIds
    simp only [List.map_cons]
    rw [List.nodup_cons]
    exact ⟨hfresh, hin⟩
  · intro i hi
    unfold cardIds
    simp only [List.map_cons]
    exact List.mem_cons_of_mem _ (hqs i hi)
  · exact hqn
  · intro c hc
    rcases List.mem_cons.mp hc with rfl | h2
    · exact ⟨by norm_num, by norm_num⟩
    · exact hsc c h2
  · intro c hc
    rcases List.mem_cons.mp hc with rfl | h2
    · exact hgood
    · exact htg c h2
  · exact regTags_keys_nodup tks s.next_card_id hkn
  · exact regTags_buckets_ne tks s.next_card_id hbn
  · intro t i
    simp only
    rw [regTags_lookup, List.count_append, List.count_replicate, htc, countTagIn_cons]
    simp only
    by_cases hi : s.next_card_id = i
    · rw [if_pos (by simp [hi]), if_pos hi, ← hi, countTagIn_not_mem hfresh, Nat.add_zero]
    · rw [if_neg (by simp [hi]), if_neg hi, Nat.zero_add]

lemma stInv_replace {s : AppState} (hInv : StInv s) {cs1 : List Card} {q1 : List Int}
    (hshape : cs1.map shape = s.cards.map shape)
    (hsched : ∀ c ∈ cs1, 1 ≤ c.interval ∧ 0 ≤ c.due_in)
    (hq_sub : ∀ i ∈ q1, i ∈ s.cards.map Card.id)
    (hq_nodup : q1.Nodup) :
    StInv { s with cards := cs1, queue := q1 } := by
  obtain ⟨hnp, hip, hil, hin, hqs, hqn, hsc, htg, hkn, hbn, htc⟩ := hInv
  have hids : cs1.map Card.id = s.cards.map Card.id := map_id_of_map_shape hshape
  have hmemsh := mem_shape_exists hshape.symm
  refine ⟨hnp, ?_, ?_, ?_, ?_, hq_nodup, hsched, ?_, hkn, hbn, ?_⟩
  · intro c hc
    obtain ⟨c0, hc0, hsh⟩ := hmemsh c hc
    have : c0.id = c.id := by
      have := congrArg Prod.fst hsh
      simpa [shape] using this
    rw [← this]
    exact hip c0 hc0
  · intro c hc
    obtain ⟨c0, hc0, hsh⟩ := hmemsh c hc
    have : c0.id = c.id := by
      have := congrArg Prod.fst hsh
      simpa [shape] using this
    rw [← this]
    exact hil c0 hc0
  · unfold cardIds
    simp only
    rw [hids]
    exact hin
  · intro i hi
    unfold cardIds
    simp only
    rw [hids]
    exact hq_sub i hi
  · intro c hc
    obtain ⟨c0, hc0, hsh⟩ := hmemsh c hc
    have : c0.tags = c.tags := by
      have := congrArg (fun x => x.2.2.2) hsh
      simpa [shape] using this
    rw [← this]
    exact htg c0 hc0
  · intro t i
    simp only
    rw [htc t i]
    exact (countTagIn_of_map_shape hshape i t).symm

lemma stInv_update_sched {s : AppState} (hInv : StInv s) {i : Int} {f : Card → Card}
    (hshape : ∀ c, shape (f c) = shape c)
    (hsched : 1 ≤ (f (getCard s.cards i)).interval ∧ 0 ≤ (f (getCard s.cards i)).due_in) :
    StInv { s with cards := updateCard s.cards i f } := by
  by_cases hmem : i ∈ s.cards.map Card.id
  · have hrep := @updateCard_map_shape s.cards i f hshape
    have hq_sub : ∀ j ∈ s.queue, j ∈ s.cards.map Card.id := hInv.queue_sub
    refine stInv_replace hInv hrep ?_ hq_sub hInv.queue_nodup
    intro c hc
    rcases mem_updateCard hmem c hc with h1 | h2
    · exact hInv.sched c h1
    · rw [h2]
      exact hsched
  · rw [updateCard_not_mem f hmem]
    exact stInv_replace hInv rfl hInv.sched hInv.queue_sub hInv.queue_nodup

lemma gradeCorrect_shape (c : Card) : shape (gradeCorrect c) = shape c := rfl

lemma gradeIncorrect_shape (c : Card) : shape (gradeIncorrect c) = shape c := rfl

lemma gradeCorrect_sched (c : Card) :
    1 ≤ (gradeCorrect c).interval ∧ 0 ≤ (gradeCorrect c).due_in := by
  unfold gradeCorrect
  simp only
  split <;> constructor <;> omega

lemma gradeIncorrect_sched (c : Card) :
    1 ≤ (gradeIncorrect c).interval ∧ 0 ≤ (gradeIncorrect c).due_in := by
  unfold gradeIncorrect
  exact ⟨le_refl 1, by norm_num⟩

lemma stInv_enqueue {s : AppState} (hInv : StInv s) {cid : Int}
    (hmem : cid ∈ cardIds s) (hnew : cid ∉ s.queue) :
    StInv { s with queue := s.queue ++ [cid] } := by
  obtain ⟨hnp, hip, hil, hin, hqs, hqn, hsc, htg, hkn, hbn, htc⟩ := hInv
  refine ⟨hnp, hip, hil, hin, ?_, ?_, hsc, htg, hkn, hbn, htc⟩
  · intro i hi
    simp only at hi
    rcases List.mem_append.mp hi with h1 | h2
    · exact hqs i h1
    · rw [List.mem_singleton.mp h2]
      exact hmem
  · simp only
    rw [List.nodup_append]
    exact ⟨hqn, List.nodup_singleton cid, by simpa using hnew⟩

lemma stInv_bump {s : AppState} (hInv : StInv s) {n : Int} (h : s.next_card_id ≤ n) :
    StInv { s with next_card_id := n } := by
  obtain ⟨hnp, hip, hil, hin, hqs, hqn, hsc, htg, hkn, hbn, htc⟩ := hInv
  refine ⟨by simp only; omega, hip, ?_, hin, hqs, hqn, hsc, htg, hkn, hbn, htc⟩
  intro c hc
  have := hil c hc
  simp only
  omega

lemma setDue0_id (c : Card) : (setDue0 c).id = c.id := rfl

lemma setDue0_shape (c : Card) : shape (setDue0 c) = shape c := rfl

lemma loadFix_id (itv due : Int) (c : Card) : (loadFix itv due c).id = c.id := rfl

lemma loadFix_shape (itv due : Int) (c : Card) : shape (loadFix itv due c) = shape c := rfl

lemma loadFix_sched (itv due : Int) (c : Card) :
    1 ≤ (loadFix itv due c).interval ∧ 0 ≤ (loadFix itv due c).due_in := by
  unfold loadFix
  constructor
  · simp only
    split <;> omega
  · simp only
    split <;> omega

lemma add_card_nil {qline : CStr} (h : trim_newline qline = [])
    (aline tline : CStr) (s : AppState) :
    add_card_interactive qline aline tline s = s := by
  unfold add_card_interactive
  rw [if_pos h]

lemma add_card_pos {qline : CStr} (h : ¬ trim_newline qline = [])
    (aline tline : CStr) (s : AppState) :
    add_card_interactive qline aline tline s =
      { s with
        cards := updateCard
          (⟨s.next_card_id, trim_newline qline, trim_newline aline,
            parse_tags (trim_newline tline), 1, 0⟩ :: s.cards)
          s.next_card_id setDue0,
        next_card_id := s.next_card_id + 1,
        tag_map := (parse_tags (trim_newline tline)).foldl
          (fun m t => tag_add_card m t s.next_card_id) s.tag_map,
        queue := s.queue ++ [s.next_card_id] } := by
  unfold add_card_interactive
  rw [if_neg h]
  rfl

lemma stInv_add {s : AppState} (hInv : StInv s) (qline aline tline : CStr) :
    StInv (add_card_interactive qline aline tline s) := by
  by_cases hq : trim_newline qline = []
  · rw [add_card_nil hq]
    exact hInv
  · rw [add_card_pos hq]
    have hfresh_q : s.next_card_id ∉ s.queue := by
      intro hmem
      obtain ⟨c, hc, hce⟩ := List.mem_map.mp (hInv.queue_sub _ hmem)
      exact absurd (hce ▸ hInv.ids_lt c hc) (by omega)
    have h1 : StInv (create_card (trim_newline qline) (trim_newline aline)
        (parse_tags (trim_newline tline)) s).2 :=
      stInv_create hInv (fun t ht => parse_tags_good t ht)
    rw [create_card_snd] at h1
    have hmem1 : s.next_card_id ∈
        ((⟨s.next_card_id, trim_newline qline, trim_newline aline,
          parse_tags (trim_newline tline), 1, 0⟩ : Card) :: s.cards).map Card.id := by
      simp only [List.map_cons]
      exact List.mem_cons_self _ _
    have h2 := stInv_update_sched (i := s.next_card_id) (f := setDue0) h1 setDue0_shape
      (by
        refine ⟨?_, by simp [setDue0]⟩
        simp only [setDue0]
        exact (h1.sched _ (getCard_mem hmem1).1).1)
    have h3 : s.next_card_id ∈ cardIds { (create_card (trim_newline qline) (trim_newline aline)
        (parse_tags (trim_newline tline)) s).2 with
        cards := updateCard (create_card (trim_newline qline) (trim_newline aline)
          (parse_tags (trim_newline tline)) s).2.cards s.next_card_id setDue0 } := by
      unfold cardIds
      simp only
      rw [updateCard_map_id setDue0_id, create_card_snd]
      exact hmem1
    exact stInv_enqueue h2 h3 hfresh_q

lemma remove_card_none {s : AppState} {i : Int}
    (h : s.cards.find? (fun c => c.id == i) = none) :
    remove_card_interactive i s = s := by
  unfold remove_card_interactive
  rw [h]

lemma remove_card_some {s : AppState} {i : Int} {c : Card}
    (h : s.cards.find? (fun c => c.id == i) = some c) :
    remove_card_interactive i s =
      { s with queue := s.queue.filter (fun j => j ≠ c.id),
               cards := eraseCardById s.cards c.id,
               tag_map := tag_remove_card c s.tag_map } := by
  unfold remove_card_interactive
  rw [h]

lemma stInv_remove {s : AppState} (hInv : StInv s) (i : Int) :
    StInv (remove_card_interactive i s) := by
  rcases hf : s.cards.find? (fun c => c.id == i) with _ | c
  · rw [remove_card_none hf]
    exact hInv
  · rw [remove_card_some hf]
    obtain ⟨hcmem, hcid⟩ := find_card_eq_some hf
    obtain ⟨hnp, hip, hil, hin, hqs, hqn, hsc, htg, hkn, hbn, htc⟩ := hInv
    refine ⟨hnp, ?_, ?_, ?_, ?_, ?_, ?_, ?_, ?_, ?_, ?_⟩
    · intro d hd
      exact hip d (mem_eraseCardById d hd)
    · intro d hd
      exact hil d (mem_eraseCardById d hd)
    · unfold cardIds
      simp only
      rw [eraseCardById_map_id]
      exact hin.erase _
    · intro j hj
      simp only at hj
      have hj1 := List.mem_of_mem_filter hj
      have hj2 : j ≠ c.id := by
        have := List.of_mem_filter hj
        simpa using this
      unfold cardIds at hqs ⊢
      simp only
      rw [eraseCardById_map_id]
      exact (List.mem_erase_of_ne hj2).mpr (hqs j hj1)
    · simp only
      exact hqn.filter _
    · intro d hd
      exact hsc d (mem_eraseCardById d hd)
    · intro d hd
      exact htg d (mem_eraseCardById d hd)
    · unfold tag_remove_card
      exact remTags_keys_nodup c.tags c.id hkn
    · unfold tag_remove_card
      exact remTags_buckets_ne c.tags c.id hbn
    · intro t j
      simp only
      unfold tag_remove_card
      rw [remTags_count c.tags c.id hkn t j, htc, countTagIn_erase hin]
      by_cases hj : j = c.id
      · rw [if_pos hj, if_pos hj, hj]
        have hval : countTagIn s.cards c.id t = c.tags.count t := by
          unfold countTagIn
          rw [hcid, hf]
        rw [hval]
        omega
      · rw [if_neg hj, if_neg hj]
        omega

lemma scanQueue_shape (s : AppState) {o : Option Int} {q1 : List Int}
    {cs1 : List Card} {p : Nat}
    (hr : scanQueue s.queue s.cards = (o, q1, cs1, p)) :
    cs1.map shape = s.cards.map shape := by
  have h := scanGo_map_shape s.queue.length s.queue s.cards
  unfold scanQueue at hr
  rw [hr] at h
  exact h

lemma scanQueue_sched (s : AppState) {o : Option Int} {q1 : List Int}
    {cs1 : List Card} {p : Nat}
    (hr : scanQueue s.queue s.cards = (o, q1, cs1, p))
    (h : ∀ c ∈ s.cards, 1 ≤ c.interval ∧ 0 ≤ c.due_in) :
    ∀ c ∈ cs1, 1 ≤ c.interval ∧ 0 ≤ c.due_in := by
  have hs := @scanGo_sched s.queue.length s.queue s.cards h
  unfold scanQueue at hr
  rw [hr] at hs
  exact hs

lemma stInv_practice {s : AppState} (hInv : StInv s) (v : Verdict) :
    StInv (practice_round v s) := by
  unfold practice_round
  split
  · exact hInv
  · dsimp only
    rcases hr : scanQueue s.queue s.cards with ⟨o, q1, cs1, pp⟩
    dsimp only
    have hshape := scanQueue_shape s hr
    have hsched := scanQueue_sched s hr hInv.sched
    have hids : cs1.map Card.id = s.cards.map Card.id := map_id_of_map_shape hshape
    cases o with
    | none =>
      have hperm : q1.Perm s.queue := scanGo_perm_none hr
      exact stInv_replace hInv hshape hsched
        (fun i hi => hInv.queue_sub i (hperm.subset hi))
        (hperm.symm.nodup hInv.queue_nodup)
    | some cid =>
      have hperm : (cid :: q1).Perm s.queue := scanGo_perm_some hr
      have hndc : (cid :: q1).Nodup := hperm.symm.nodup hInv.queue_nodup
      rw [List.nodup_cons] at hndc
      have hcidq : cid ∈ s.queue := hperm.subset (List.mem_cons_self _ _)
      have hcidmem : cid ∈ s.cards.map Card.id := hInv.queue_sub cid hcidq
      have hq1sub : ∀ i ∈ q1, i ∈ s.cards.map Card.id :=
        fun i hi => hInv.queue_sub i (hperm.subset (List.mem_cons_of_mem _ hi))
      have happ_sub : ∀ i ∈ q1 ++ [cid], i ∈ s.cards.map Card.id := by
        intro i hi
        rcases List.mem_append.mp hi with h1 | h2
        · exact hq1sub i h1
        · rw [List.mem_singleton.mp h2]
          exact hcidmem
      have happ_nd : (q1 ++ [cid]).Nodup := by
        rw [List.nodup_append]
        exact ⟨hndc.2, List.nodup_singleton cid, by simpa using hndc.1⟩
      have hcid1 : cid ∈ cs1.map Card.id := by
        rw [hids]
        exact hcidmem
      cases v with
      | eofBefore => exact stInv_replace hInv hshape hsched hq1sub hndc.2
      | eofAfter => exact stInv_replace hInv hshape hsched hq1sub hndc.2
      | stopBefore => exact stInv_replace hInv hshape hsched happ_sub happ_nd
      | stopAfter => exact stInv_replace hInv hshape hsched happ_sub happ_nd
      | correct =>
        refine stInv_replace hInv ?_ ?_ happ_sub happ_nd
        · rw [updateCard_map_shape gradeCorrect_shape, hshape]
        · intro c hc
          rcases mem_updateCard hcid1 c hc with h1 | h2
          · exact hsched c h1
          · rw [h2]
            exact gradeCorrect_sched _
      | incorrect =>
        refine stInv_replace hInv ?_ ?_ happ_sub happ_nd
        · rw [updateCard_map_shape gradeIncorrect_shape, hshape]
        · intro c hc
          rcases mem_updateCard hcid1 c hc with h1 | h2
          · exact hsched c h1
          · rw [h2]
            exact gradeIncorrect_sched _

lemma commitCard_none_q {p : PState} (hq : p.qtext = none) (s : AppState) :
    commitCard p s = s := by
  unfold commitCard
  rw [hq]

lemma commitCard_none_a {p : PState} {q : CStr} (hq : p.qtext = some q)
    (ha : p.atext = none) (s : AppState) : commitCard p s = s := by
  unfold commitCard
  rw [hq, ha]

lemma commitCard_some {p : PState} {q a : CStr} (hq : p.qtext = some q)
    (ha : p.atext = some a) (s : AppState) :
    commitCard p s =
      { s with
        cards := updateCard
          (⟨s.next_card_id, q, a, parse_tags (p.tagsline.getD []), 1, 0⟩ :: s.cards)
          s.next_card_id (loadFix p.interval p.due),
        next_card_id := if p.id ≥ s.next_card_id + 1 then p.id + 1 else s.next_card_id + 1,
        tag_map := (parse_tags (p.tagsline.getD [])).foldl
          (fun m t => tag_add_card m t s.next_card_id) s.tag_map,
        queue := s.queue ++ [s.next_card_id] } := by
  unfold commitCard
  rw [hq, ha]
  rfl

lemma stInv_commit {s : AppState} (hInv : StInv s) (p : PState) :
    StInv (commitCard p s) := by
  rcases hq : p.qtext with _ | q
  · rw [commitCard_none_q hq]
    exact hInv
  rcases ha : p.atext with _ | a
  · rw [commitCard_none_a hq ha]
    exact hInv
  rw [commitCard_some hq ha]
  have hfresh_q : s.next_card_id ∉ s.queue := by
    intro hmem
    obtain ⟨c, hc, hce⟩ := List.mem_map.mp (hInv.queue_sub _ hmem)
    exact absurd (hce ▸ hInv.ids_lt c hc) (by omega)
  have h1 : StInv (create_card q a (parse_tags (p.tagsline.getD [])) s).2 :=
    stInv_create hInv (fun t ht => parse_tags_good t ht)
  rw [create_card_snd] at h1
  have hmem1 : s.next_card_id ∈
      ((⟨s.next_card_id, q, a, parse_tags (p.tagsline.getD []), 1, 0⟩ : Card) :: s.cards).map
        Card.id := by
    simp only [List.map_cons]
    exact List.mem_cons_self _ _
  have h2 := stInv_update_sched (i := s.next_card_id) (f := loadFix p.interval p.due) h1
    (loadFix_shape p.interval p.due) (loadFix_sched p.interval p.due _)
  have h3 : s.next_card_id ∈ cardIds
      { (create_card q a (parse_tags (p.tagsline.getD [])) s).2 with
        cards := updateCard
          ((create_card q a (parse_tags (p.tagsline.getD [])) s).2).cards
          s.next_card_id (loadFix p.interval p.due) } := by
    unfold cardIds
    simp only
    rw [create_card_snd]
    simp only
    rw [updateCard_map_id (loadFix_id p.interval p.due)]
    exact hmem1
  by_cases hb : p.id ≥ s.next_card_id + 1
  · rw [if_pos hb]
    exact stInv_enqueue (stInv_bump h2 (by simp only; omega)) h3 hfresh_q
  · rw [if_neg hb]
    exact stInv_enqueue h2 h3 hfresh_q

lemma stInv_loadLineT {p : PState} {s : AppState} (h : StInv s) (line : CStr) :
    StInv (loadLineT p s line).2 := by
  unfold loadLineT
  split
  · exact h
  split
  · exact h
  split
  · exact h
  split
  · exact h
  split
  · exact h
  split
  · exact h
  split
  · exact stInv_commit h p
  · exact h

lemma stInv_loadLine {st : PState × AppState} (h : StInv st.2) (line : CStr) :
    StInv (loadLine st line).2 :=
  stInv_loadLineT h (trim_newline line)

lemma stInv_loadFold (lines : List CStr) :
    ∀ (st : PState × AppState), StInv st.2 → StInv ((lines.foldl loadLine st).2) := by
  induction lines with
  | nil => intro st h; exact h
  | cons l lines ih =>
    intro st h
    rw [List.foldl_cons]
    exact ih _ (stInv_loadLine h l)

lemma stInv_cleared {s : AppState} (hInv : StInv s) :
    StInv { s with cards := [], tag_map := [], queue := [] } := by
  refine ⟨hInv.next_pos, ?_, ?_, ?_, ?_, ?_, ?_, ?_, ?_, ?_, ?_⟩
  · intro c hc; cases hc
  · intro c hc; cases hc
  · exact List.nodup_nil
  · intro i hi; cases hi
  · exact List.nodup_nil
  · intro c hc; cases hc
  · intro c hc; cases hc
  · exact List.nodup_nil
  · intro e he; cases he
  · intro t i; rfl

lemma stInv_load {s : AppState} (hInv : StInv s) (stream : CStr) :
    StInv (load_cards stream s) := by
  unfold load_cards
  dsimp only
  exact stInv_commit (stInv_loadFold (fgets_split stream) _ (stInv_cleared hInv)) _

lemma stInv_applyOp {s : AppState} (hInv : StInv s) (op : Op) :
    StInv (applyOp s op) := by
  cases op with
  | add q a t => exact stInv_add hInv q a t
  | remove i => exact stInv_remove hInv i
  | practice v => exact stInv_practice hInv v
  | load stream => exact stInv_load hInv stream

lemma stInv_init : StInv initState := by
  refine ⟨?_, ?_, ?_, ?_, ?_, ?_, ?_, ?_, ?_, ?_, ?_⟩ <;>
    first
      | exact le_refl 1
      | exact List.nodup_nil
      | (intro t i; rfl)
      | (intro x hx; cases hx)

lemma stInv_applyOps (ops : List Op) : StInv (applyOps initState ops) := by
  suffices h : ∀ s, StInv s → StInv (applyOps s ops) from h initState stInv_init
  unfold applyOps
  induction ops with
  | nil => intro s h; exact h
  | cons op ops ih =>
    intro s h
    rw [List.foldl_cons]
    exact ih _ (stInv_applyOp h op)

/-! ### Text well-formedness preservation -/

lemma goodText_trim_newline {l : CStr} (h : GoodLine l) : GoodText (trim_newline l) := by
  refine ⟨fun hm => h.1 (mem_trim_newline hm), fun hm => h.2.1 (mem_trim_newline hm), ?_⟩
  exact fun b hb => (trim_newline_getLast b hb).2

lemma goodText_drop {l : CStr} (h : GoodText l) (n : Nat) : GoodText (l.drop n) := by
  refine ⟨fun hm => h.1 (List.drop_subset n l hm), fun hm => h.2.1 (List.drop_subset n l hm), ?_⟩
  intro b hb
  rcases he : l.drop n with _ | ⟨x, t⟩
  · rw [he] at hb
    cases hb
  · rw [getLast?_drop_of_ne_nil (by rw [he]; simp)] at hb
    exact h.2.2 b hb

lemma tags_clean_parse {line : CStr} (h10 : 10 ∉ line) (h0 : 0 ∉ line) :
    ∀ t ∈ parse_tags line, 10 ∉ t ∧ 0 ∉ t :=
  fun t ht => ⟨parse_tags_not_mem (by norm_num) h10 ht,
    parse_tags_not_mem (by norm_num) h0 ht⟩

lemma textInv_shape {cs cs' : List Card} (hsh : cs.map shape = cs'.map shape)
    (h : TextInv cs) : TextInv cs' := by
  intro c' hc'
  obtain ⟨c, hc, hce⟩ := mem_shape_exists hsh c' hc'
  obtain ⟨hq, ha, ht⟩ := h c hc
  have heq : c.question = c'.question ∧ c.answer = c'.answer ∧ c.tags = c'.tags := by
    refine ⟨?_, ?_, ?_⟩
    · have := congrArg (fun x => x.2.1) hce
      simpa [shape] using this
    · have := congrArg (fun x => x.2.2.1) hce
      simpa [shape] using this
    · have := congrArg (fun x => x.2.2.2) hce
      simpa [shape] using this
  exact ⟨heq.1 ▸ hq, heq.2.1 ▸ ha, heq.2.2 ▸ ht⟩

lemma updateCard_cons_self {c : Card} {cs : List Card} {i : Int} {f : Card → Card}
    (h : c.id = i) : updateCard (c :: cs) i f = f c :: cs := by
  rw [updateCard, if_pos h]

lemma textInv_add {s : AppState} (hT : TextInv s.cards)
    {qline aline tline : CStr} (hq : GoodLine qline) (ha : GoodLine aline)
    (ht : GoodLine tline) :
    TextInv (add_card_interactive qline aline tline s).cards := by
  by_cases h : trim_newline qline = []
  · rw [add_card_nil h]
    exact hT
  · rw [add_card_pos h]
    simp only
    rw [updateCard_cons_self rfl]
    intro c hc
    rcases List.mem_cons.mp hc with rfl | h2
    · refine ⟨goodText_trim_newline hq, goodText_trim_newline ha, ?_⟩
      exact tags_clean_parse (fun hm => ht.1 (mem_trim_newline hm))
        (fun hm => ht.2.1 (mem_trim_newline hm))
    · exact hT c h2

lemma textInv_remove {s : AppState} (hT : TextInv s.cards) (i : Int) :
    TextInv (remove_card_interactive i s).cards := by
  rcases hf : s.cards.find? (fun c => c.id == i) with _ | c
  · rw [remove_card_none hf]
    exact hT
  · rw [remove_card_some hf]
    intro d hd
    exact hT d (mem_eraseCardById d hd)

lemma practice_cards_shape (v : Verdict) (s : AppState) :
    (practice_round v s).cards.map shape = s.cards.map shape := by
  unfold practice_round
  split
  · rfl
  · dsimp only
    rcases hr : scanQueue s.queue s.cards with ⟨o, q1, cs1, pp⟩
    dsimp only
    have hshape := scanQueue_shape s hr
    cases o with
    | none => exact hshape
    | some cid =>
      cases v with
      | eofBefore => exact hshape
      | eofAfter => exact hshape
      | stopBefore => exact hshape
      | stopAfter => exact hshape
      | correct =>
        show (updateCard cs1 cid gradeCorrect).map shape = _
        rw [updateCard_map_shape gradeCorrect_shape]
        exact hshape
      | incorrect =>
        show (updateCard cs1 cid gradeIncorrect).map shape = _
        rw [updateCard_map_shape gradeIncorrect_shape]
        exact hshape

lemma textInv_practice {s : AppState} (hT : TextInv s.cards) (v : Verdict) :
    TextInv (practice_round v s).cards :=
  textInv_shape (practice_cards_shape v s).symm hT

lemma pGood_reset : PGood resetP := by
  refine ⟨?_, ?_, ?_⟩ <;> intro x h <;> cases h

lemma textInv_commit {p : PState} {s : AppState} (hp : PGood p)
    (hT : TextInv s.cards) : TextInv (commitCard p s).cards := by
  rcases hq : p.qtext with _ | q
  · rw [commitCard_none_q hq]
    exact hT
  rcases ha : p.atext with _ | a
  · rw [commitCard_none_a hq ha]
    exact hT
  rw [commitCard_some hq ha]
  simp only
  rw [updateCard_cons_self rfl]
  intro c hc
  rcases List.mem_cons.mp hc with rfl | h2
  · refine ⟨hp.1 q hq, hp.2.1 a ha, ?_⟩
    rcases htl : p.tagsline with _ | tl
    · intro t ht
      rw [show ((none : Option CStr).getD [] : CStr) = [] from rfl] at ht
      rw [show parse_tags [] = [] from rfl] at ht
      cases ht
    · obtain ⟨h10, h0⟩ := hp.2.2 tl htl
      exact tags_clean_parse h10 h0
  · exact hT c h2

lemma pGood_loadLineT {p : PState} {s : AppState} {line : CStr} (hp : PGood p)
    (hl : GoodText line) : PGood (loadLineT p s line).1 := by
  unfold loadLineT
  obtain ⟨hpq, hpa, hpt⟩ := hp
  split
  · exact ⟨hpq, hpa, hpt⟩
  split
  · refine ⟨?_, hpa, hpt⟩
    intro q' hq'
    cases hq'
    exact goodText_drop hl 2
  split
  · refine ⟨hpq, ?_, hpt⟩
    intro a' ha'
    cases ha'
    exact goodText_drop hl 2
  split
  · refine ⟨hpq, hpa, ?_⟩
    intro tl htl
    cases htl
    have hd := goodText_drop hl 2
    exact ⟨hd.1, hd.2.1⟩
  split
  · exact ⟨hpq, hpa, hpt⟩
  split
  · exact ⟨hpq, hpa, hpt⟩
  split
  · exact pGood_reset
  · exact ⟨hpq, hpa, hpt⟩

lemma textInv_loadLineT {p : PState} {s : AppState} (line : CStr) (hp : PGood p)
    (hT : TextInv s.cards) : TextInv ((loadLineT p s line).2).cards := by
  unfold loadLineT
  split
  · exact hT
  split
  · exact hT
  split
  · exact hT
  split
  · exact hT
  split
  · exact hT
  split
  · exact hT
  split
  · exact textInv_commit hp hT
  · exact hT

lemma trim_newline_append_nl (l : CStr) : trim_newline (l ++ [10]) = trim_newline l := by
  unfold trim_newline
  rw [List.reverse_append]
  rfl

lemma readLine_fst_subset : ∀ (cap : Nat) (s : CStr), ∀ b ∈ (readLine cap s).1, b ∈ s := by
  intro cap
  induction cap with
  | zero =>
    intro s b hb
    cases s with
    | nil => cases hb
    | cons x t => cases hb
  | succ cap ih =>
    intro s b hb
    cases s with
    | nil => cases hb
    | cons x t =>
      rw [readLine] at hb
      by_cases hx : x = 10
      · rw [if_pos hx] at hb
        rw [List.mem_singleton.mp hb, ← hx]
        exact List.mem_cons_self _ _
      · rw [if_neg hx] at hb
        rcases List.mem_cons.mp hb with rfl | h2
        · exact List.mem_cons_self _ _
        · exact List.mem_cons_of_mem _ (ih t b h2)

lemma readLine_snd_subset : ∀ (cap : Nat) (s : CStr), ∀ b ∈ (readLine cap s).2, b ∈ s := by
  intro cap
  induction cap with
  | zero =>
    intro s b hb
    cases s with
    | nil => cases hb
    | cons x t => exact hb
  | succ cap ih =>
    intro s b hb
    cases s with
    | nil => cases hb
    | cons x t =>
      rw [readLine] at hb
      by_cases hx : x = 10
      · rw [if_pos hx] at hb
        exact List.mem_cons_of_mem _ hb
      · rw [if_neg hx] at hb
        exact List.mem_cons_of_mem _ (ih t b hb)

lemma readLine_fst_shape : ∀ (cap : Nat) (s : CStr),
    (∃ pre, (readLine cap s).1 = pre ++ [10] ∧ 10 ∉ pre) ∨ 10 ∉ (readLine cap s).1 := by
  intro cap
  induction cap with
  | zero =>
    intro s
    cases s with
    | nil => exact Or.inr (fun h => (by cases h))
    | cons x t => exact Or.inr (fun h => (by cases h))
  | succ cap ih =>
    intro s
    cases s with
    | nil => exact Or.inr (fun h => (by cases h))
    | cons x t =>
      rw [readLine]
      by_cases hx : x = 10
      · rw [if_pos hx]
        exact Or.inl ⟨[], rfl, fun h => (by cases h)⟩
      · rw [if_neg hx]
        rcases ih t with ⟨pre, hpre, h10⟩ | h10
        · refine Or.inl ⟨x :: pre, ?_, ?_⟩
          · dsimp only
            rw [hpre]
            rfl
          · intro hm
            rcases List.mem_cons.mp hm with h1 | h2
            · exact hx h1.symm
            · exact h10 h2
        · refine Or.inr (fun hm => ?_)
          rcases List.mem_cons.mp hm with h1 | h2
          · exact hx h1.symm
          · exact h10 h2

lemma readLine_length : ∀ (cap : Nat) (s : CStr),
    (readLine cap s).1.length + (readLine cap s).2.length = s.length := by
  intro cap
  induction cap with
  | zero =>
    intro s
    rw [readLine]
    simp
  | succ cap ih =>
    intro s
    cases s with
    | nil => rfl
    | cons x t =>
      rw [readLine]
      by_cases hx : x = 10
      · rw [if_pos hx]
        dsimp only
        rw [List.length_singleton, List.length_cons]
        omega
      · rw [if_neg hx]
        dsimp only
        rw [List.length_cons, List.length_cons]
        have := ih t
        omega

lemma readLine_fst_ne {cap : Nat} {s : CStr} (hs : s ≠ []) :
    (readLine (cap + 1) s).1 ≠ [] := by
  cases s with
  | nil => exact absurd rfl hs
  | cons x t =>
    rw [readLine]
    by_cases hx : x = 10
    · rw [if_pos hx]
      exact List.cons_ne_nil _ _
    · rw [if_neg hx]
      exact List.cons_ne_nil _ _

lemma fgetsGo_subset : ∀ (fuel : Nat) (s : CStr), ∀ c ∈ fgetsGo fuel s, ∀ b ∈ c, b ∈ s := by
  intro fuel
  induction fuel with
  | zero => intro s c hc; cases hc
  | succ fuel ih =>
    intro s c hc b hb
    cases s with
    | nil => cases hc
    | cons x t =>
      rw [fgetsGo] at hc
      rcases List.mem_cons.mp hc with rfl | h2
      · exact readLine_fst_subset 4095 (x :: t) b hb
      · exact readLine_snd_subset 4095 (x :: t) b (ih _ c h2 b hb)

lemma fgetsGo_shape : ∀ (fuel : Nat) (s : CStr), ∀ c ∈ fgetsGo fuel s,
    (∃ pre, c = pre ++ [10] ∧ 10 ∉ pre) ∨ 10 ∉ c := by
  intro fuel
  induction fuel with
  | zero => intro s c hc; cases hc
  | succ fuel ih =>
    intro s c hc
    cases s with
    | nil => cases hc
    | cons x t =>
      rw [fgetsGo] at hc
      rcases List.mem_cons.mp hc with rfl | h2
      · exact readLine_fst_shape 4095 (x :: t)
      · exact ih _ c h2

lemma goodText_chunk {c : CStr} (h0 : 0 ∉ c)
    (hsh : (∃ pre, c = pre ++ [10] ∧ 10 ∉ pre) ∨ 10 ∉ c) :
    GoodText (trim_newline c) := by
  refine ⟨?_, fun hm => h0 (mem_trim_newline hm),
    fun b hb => (trim_newline_getLast b hb).2⟩
  rcases hsh with ⟨pre, rfl, h10⟩ | h10
  · rw [trim_newline_append_nl]
    exact fun hm => h10 (mem_trim_newline hm)
  · exact fun hm => h10 (mem_trim_newline hm)

lemma chunks_good {stream : CStr} (h0 : 0 ∉ stream) :
    ∀ c ∈ fgets_split stream, GoodText (trim_newline c) := by
  intro c hc
  refine goodText_chunk (fun hm => h0 ?_) (fgetsGo_shape _ _ c hc)
  exact fgetsGo_subset _ _ c hc 0 hm

lemma load_text_fold (lines : List CStr) (hls : ∀ l ∈ lines, GoodText (trim_newline l)) :
    ∀ st : PState × AppState, PGood st.1 → TextInv st.2.cards →
      PGood ((lines.foldl loadLine st).1) ∧ TextInv ((lines.foldl loadLine st).2).cards := by
  induction lines with
  | nil => intro st hp hT; exact ⟨hp, hT⟩
  | cons l lines ih =>
    intro st hp hT
    rw [List.foldl_cons]
    exact ih (fun x hx => hls x (List.mem_cons_of_mem _ hx)) _
      (pGood_loadLineT hp (hls l (List.mem_cons_self _ _)))
      (textInv_loadLineT _ hp hT)

lemma textInv_load {s : AppState} (stream : CStr) (h0 : 0 ∉ stream) :
    TextInv (load_cards stream s).cards := by
  unfold load_cards
  dsimp only
  obtain ⟨hp', hT'⟩ := load_text_fold (fgets_split stream) (chunks_good h0)
    (resetP, { s with cards := [], tag_map := [], queue := [] })
    pGood_reset (fun c hc => nomatch hc)
  exact textInv_commit hp' hT'

lemma textInv_applyOp {s : AppState} (hT : TextInv s.cards) {op : Op}
    (hgood : GoodOp op) : TextInv (applyOp s op).cards := by
  cases op with
  | add q a t => exact textInv_add hT hgood.1 hgood.2.1 hgood.2.2
  | remove i => exact textInv_remove hT i
  | practice v => exact textInv_practice hT v
  | load stream => exact textInv_load stream hgood

lemma textInv_applyOps {ops : List Op} (hgood : GoodOps ops) :
    TextInv (applyOps initState ops).cards := by
  suffices h : ∀ s, TextInv s.cards → TextInv (applyOps s ops).cards from
    h initState (fun c hc => nomatch hc)
  unfold applyOps
  induction ops with
  | nil => intro s h; exact h
  | cons op ops ih =>
    intro s h
    rw [List.foldl_cons]
    exact ih (fun x hx => hgood x (List.mem_cons_of_mem _ hx)) _
      (textInv_applyOp h (hgood op (List.mem_cons_self _ _)))

/-! ### Save format round-trip: line dispatch -/

lemma getLast_fixed {l : CStr} {v : Nat} (he : l.getLast? = some v) (h10 : v ≠ 10)
    (h13 : v ≠ 13) : ∀ b, l.getLast? = some b → b ≠ 10 ∧ b ≠ 13 := by
  intro b hb
  rw [he, Option.some_inj] at hb
  exact ⟨hb ▸ h10, hb ▸ h13⟩

lemma goodText_last {q : CStr} (h : GoodText q) :
    ∀ b, q.getLast? = some b → b ≠ 10 ∧ b ≠ 13 :=
  fun b hb => ⟨fun h10 => h.1 (h10 ▸ mem_of_getLast_some hb), h.2.2 b hb⟩

lemma joinTags_last {tags : List CStr} (htags : ∀ t ∈ tags, GoodTag t) :
    ∀ b, (joinComma tags).getLast? = some b → b ≠ 10 ∧ b ≠ 13 := by
  intro b hb
  rcases joinComma_getLast htags b hb with hsp | h44
  · constructor
    · intro h10
      rw [h10] at hsp
      cases hsp
    · intro h13
      rw [h13] at hsp
      cases hsp
  · rw [h44]
    exact ⟨by omega, by omega⟩

lemma trim_newline_append {pre q : CStr}
    (hpre : ∀ b, pre.getLast? = some b → b ≠ 10 ∧ b ≠ 13)
    (hq : ∀ b, q.getLast? = some b → b ≠ 10 ∧ b ≠ 13) :
    trim_newline (pre ++ q) = pre ++ q := by
  apply trim_newline_eq_self
  cases q with
  | nil =>
    rw [List.append_nil]
    exact hpre
  | cons x t =>
    intro b hb
    rw [List.getLast?_append_of_ne_nil _ (by simp)] at hb
    exact hq b hb

lemma strID_eq : str "ID=" = [73, 68, 61] := by decide
lemma strQ_eq : str "Q=" = [81, 61] := by decide
lemma strA_eq : str "A=" = [65, 61] := by decide
lemma strT_eq : str "T=" = [84, 61] := by decide
lemma strI_eq : str "I=" = [73, 61] := by decide
lemma strD_eq : str "D=" = [68, 61] := by decide

lemma loadLine_ID (p : PState) (s : AppState) (i : Int) (hi : 0 ≤ i) :
    loadLine (p, s) (str "ID=" ++ intToStr i) = ({ p with id := i }, s) := by
  unfold loadLine loadLineT
  dsimp only
  rw [trim_newline_append (getLast_fixed (v := 61) (by decide) (by omega) (by omega))
    (intToStr_getLast i)]
  rw [if_pos (by simp [strID_eq, List.isPrefixOf])]
  rw [show (str "ID=" ++ intToStr i).drop 3 = intToStr i by simp [strID_eq]]
  rw [atoi_intToStr hi]

lemma loadLine_Q (p : PState) (s : AppState) (q : CStr) (hq : GoodText q) :
    loadLine (p, s) (str "Q=" ++ q) = ({ p with qtext := some q }, s) := by
  unfold loadLine loadLineT
  dsimp only
  rw [trim_newline_append (getLast_fixed (v := 61) (by decide) (by omega) (by omega))
    (goodText_last hq)]
  rw [if_neg (by simp [strID_eq, strQ_eq, List.isPrefixOf])]
  rw [if_pos (by simp [strQ_eq, List.isPrefixOf])]
  rw [show (str "Q=" ++ q).drop 2 = q by simp [strQ_eq]]

lemma loadLine_A (p : PState) (s : AppState) (a : CStr) (ha : GoodText a) :
    loadLine (p, s) (str "A=" ++ a) = ({ p with atext := some a }, s) := by
  unfold loadLine loadLineT
  dsimp only
  rw [trim_newline_append (getLast_fixed (v := 61) (by decide) (by omega) (by omega))
    (goodText_last ha)]
  rw [if_neg (by simp [strID_eq, strA_eq, List.isPrefixOf])]
  rw [if_neg (by simp [strQ_eq, strA_eq, List.isPrefixOf])]
  rw [if_pos (by simp [strA_eq, List.isPrefixOf])]
  rw [show (str "A=" ++ a).drop 2 = a by simp [strA_eq]]

lemma loadLine_T (p : PState) (s : AppState) (tags : List CStr)
    (htags : ∀ t ∈ tags, GoodTag t) :
    loadLine (p, s) (str "T=" ++ joinComma tags) =
      ({ p with tagsline := some (joinComma tags) }, s) := by
  unfold loadLine loadLineT
  dsimp only
  rw [trim_newline_append (getLast_fixed (v := 61) (by decide) (by omega) (by omega))
    (joinTags_last htags)]
  rw [if_neg (by simp [strID_eq, strT_eq, List.isPrefixOf])]
  rw [if_neg (by simp [strQ_eq, strT_eq, List.isPrefixOf])]
  rw [if_neg (by simp [strA_eq, strT_eq, List.isPrefixOf])]
  rw [if_pos (by simp [strT_eq, List.isPrefixOf])]
  rw [show (str "T=" ++ joinComma tags).drop 2 = joinComma tags by simp [strT_eq]]

lemma loadLine_I (p : PState) (s : AppState) (i : Int) (hi : 0 ≤ i) :
    loadLine (p, s) (str "I=" ++ intToStr i) = ({ p with interval := i }, s) := by
  unfold loadLine loadLineT
  dsimp only
  rw [trim_newline_append (getLast_fixed (v := 61) (by decide) (by omega) (by omega))
    (intToStr_getLast i)]
  rw [if_neg (by simp [strID_eq, strI_eq, List.isPrefixOf])]
  rw [if_neg (by simp [strQ_eq, strI_eq, List.isPrefixOf])]
  rw [if_neg (by simp [strA_eq, strI_eq, List.isPrefixOf])]
  rw [if_neg (by simp [strT_eq, strI_eq, List.isPrefixOf])]
  rw [if_pos (by simp [strI_eq, List.isPrefixOf])]
  rw [show (str "I=" ++ intToStr i).drop 2 = intToStr i by simp [strI_eq]]
  rw [atoi_intToStr hi]

lemma loadLine_D (p : PState) (s : AppState) (i : Int) (hi : 0 ≤ i) :
    loadLine (p, s) (str "D=" ++ intToStr i) = ({ p with due := i }, s) := by
  unfold loadLine loadLineT
  dsimp only
  rw [trim_newline_append (getLast_fixed (v := 61) (by decide) (by omega) (by omega))
    (intToStr_getLast i)]
  rw [if_neg (by simp [strID_eq, strD_eq, List.isPrefixOf])]
  rw [if_neg (by simp [strQ_eq, strD_eq, List.isPrefixOf])]
  rw [if_neg (by simp [strA_eq, strD_eq, List.isPrefixOf])]
  rw [if_neg (by simp [strT_eq, strD_eq, List.isPrefixOf])]
  rw [if_neg (by simp [strI_eq, strD_eq, List.isPrefixOf])]
  rw [if_pos (by simp [strD_eq, List.isPrefixOf])]
  rw [show (str "D=" ++ intToStr i).drop 2 = intToStr i by simp [strD_eq]]
  rw [atoi_intToStr hi]

lemma loadLine_sep (p : PState) (s : AppState) :
    loadLine (p, s) (str "---") = (resetP, commitCard p s) := by
  unfold loadLine loadLineT
  dsimp only
  rw [show trim_newline (str "---") = str "---" from by decide]
  rw [if_neg (by decide), if_neg (by decide), if_neg (by decide), if_neg (by decide),
    if_neg (by decide), if_neg (by decide), if_pos (by decide)]

lemma foldl_cardBlock (c : Card) (s : AppState)
    (hgc : GoodCardText c) (hgt : ∀ t ∈ c.tags, GoodTag t)
    (hid : 0 ≤ c.id) (hint : 0 ≤ c.interval) (hdue : 0 ≤ c.due_in) :
    (cardBlock c).foldl loadLine (resetP, s) = (resetP, loadStep c s) := by
  unfold cardBlock
  rw [List.foldl_cons, loadLine_ID _ _ _ hid]
  rw [List.foldl_cons, loadLine_Q _ _ _ hgc.1]
  rw [List.foldl_cons, loadLine_A _ _ _ hgc.2.1]
  rw [List.foldl_cons, loadLine_T _ _ _ hgt]
  rw [List.foldl_cons, loadLine_I _ _ _ hint]
  rw [List.foldl_cons, loadLine_D _ _ _ hdue]
  rw [List.foldl_cons, loadLine_sep, List.foldl_nil]
  rfl

lemma loadStep_eq (c : Card) (s : AppState) (hgt : ∀ t ∈ c.tags, GoodTag t) :
    loadStep c s =
      { s with
        cards := loadFix c.interval c.due_in
            ⟨s.next_card_id, c.question, c.answer, c.tags, 1, 0⟩ :: s.cards,
        next_card_id := if c.id ≥ s.next_card_id + 1 then c.id + 1 else s.next_card_id + 1,
        tag_map := c.tags.foldl (fun m t => tag_add_card m t s.next_card_id) s.tag_map,
        queue := s.queue ++ [s.next_card_id] } := by
  unfold loadStep
  rw [commitCard_some (p := fullP c) rfl rfl]
  have htags : parse_tags ((fullP c).tagsline.getD []) = c.tags := parse_tags_joinComma hgt
  rw [htags, updateCard_cons_self rfl]
  rfl

lemma loadFix_eval {itv due : Int} (hi : 1 ≤ itv) (hd : 0 ≤ due) (c : Card) :
    loadFix itv due c = { c with interval := itv, due_in := due } := by
  unfold loadFix
  rw [if_pos (by omega), if_pos hd]

lemma range_rev_cons (n : Nat) :
    (List.range (n + 1)).reverse = n :: (List.range n).reverse := by
  rw [List.range_succ, List.reverse_append, List.reverse_singleton, List.singleton_append]

lemma range_map_shift (N : Int) (n : Nat) :
    N :: (List.range n).map (fun (k : Nat) => (N + 1) + (k : Int)) =
      (List.range (n + 1)).map (fun (k : Nat) => N + (k : Int)) := by
  rw [List.range_succ_eq_map]
  simp only [List.map_cons, List.map_map, Nat.cast_zero, add_zero]
  congr 1
  apply List.map_congr_left
  intro k _
  simp only [Function.comp_apply, Nat.succ_eq_add_one]
  push_cast
  ring

lemma range_rev_shift (N : Int) (n : Nat) :
    (List.range n).reverse.map (fun (k : Nat) => (N + 1) + (k : Int)) ++ [N] =
      (List.range (n + 1)).reverse.map (fun (k : Nat) => N + (k : Int)) := by
  rw [List.map_reverse, List.map_reverse, ← range_map_shift, List.reverse_cons]

lemma foldl_blocks (cs : List Card) (s : AppState)
    (hgc : ∀ c ∈ cs, GoodCardText c) (hgt : ∀ c ∈ cs, ∀ t ∈ c.tags, GoodTag t)
    (hrng : ∀ c ∈ cs, 0 ≤ c.id ∧ 0 ≤ c.interval ∧ 0 ≤ c.due_in) :
    (cs.map cardBlock).flatten.foldl loadLine (resetP, s) =
      (resetP, cs.foldl (fun t c => loadStep c t) s) := by
  induction cs generalizing s with
  | nil => rfl
  | cons c cs ih =>
    obtain ⟨h1, h2, h3⟩ := hrng c (List.mem_cons_self _ _)
    rw [List.map_cons, List.flatten_cons, List.foldl_append,
      foldl_cardBlock c s (hgc c (List.mem_cons_self _ _)) (hgt c (List.mem_cons_self _ _)) h1 h2 h3,
      ih (loadStep c s) (fun d hd => hgc d (List.mem_cons_of_mem _ hd))
        (fun d hd => hgt d (List.mem_cons_of_mem _ hd))
        (fun d hd => hrng d (List.mem_cons_of_mem _ hd)),
      List.foldl_cons]

lemma loadSteps_fold (cs : List Card) (s0 : AppState)
    (hAll : ∀ c ∈ cs, (∀ t ∈ c.tags, GoodTag t) ∧ c.id < s0.next_card_id ∧
      1 ≤ c.interval ∧ 0 ≤ c.due_in) :
    (cs.foldl (fun t c => loadStep c t) s0).cards.map cardData =
        (cs.map cardData).reverse ++ s0.cards.map cardData ∧
      (cs.foldl (fun t c => loadStep c t) s0).next_card_id =
        s0.next_card_id + cs.length ∧
      (cs.foldl (fun t c => loadStep c t) s0).cards.map Card.id =
        (List.range cs.length).reverse.map (fun (k : Nat) => s0.next_card_id + (k : Int)) ++
          s0.cards.map Card.id ∧
      (cs.foldl (fun t c => loadStep c t) s0).queue =
        s0.queue ++ (List.range cs.length).map (fun (k : Nat) => s0.next_card_id + (k : Int)) := by
  induction cs generalizing s0 with
  | nil => refine ⟨by simp, by simp, by simp, by simp⟩
  | cons c cs ih =>
    obtain ⟨hgt, hlt, hint, hdue⟩ := hAll c (List.mem_cons_self _ _)
    have hstep : loadStep c s0 = { s0 with
          cards := (⟨s0.next_card_id, c.question, c.answer, c.tags, c.interval, c.due_in⟩ : Card)
            :: s0.cards,
          next_card_id := s0.next_card_id + 1,
          tag_map := c.tags.foldl (fun m t => tag_add_card m t s0.next_card_id) s0.tag_map,
          queue := s0.queue ++ [s0.next_card_id] } := by
      rw [loadStep_eq c s0 hgt, loadFix_eval hint hdue, if_neg (by omega)]
    have hn : (loadStep c s0).next_card_id = s0.next_card_id + 1 := by rw [hstep]
    have hc : (loadStep c s0).cards =
        (⟨s0.next_card_id, c.question, c.answer, c.tags, c.interval, c.due_in⟩ : Card)
          :: s0.cards := by rw [hstep]
    have hq : (loadStep c s0).queue = s0.queue ++ [s0.next_card_id] := by rw [hstep]
    obtain ⟨ih1, ih2, ih3, ih4⟩ := ih (loadStep c s0) (fun d hd => by
      obtain ⟨g1, g2, g3, g4⟩ := hAll d (List.mem_cons_of_mem _ hd)
      exact ⟨g1, by rw [hn]; omega, g3, g4⟩)
    rw [List.foldl_cons]
    refine ⟨?_, ?_, ?_, ?_⟩
    · rw [ih1, hc]
      simp only [List.map_cons, List.reverse_cons, List.append_assoc, List.singleton_append]
      rfl
    · rw [ih2, hn, List.length_cons]
      push_cast
      ring
    · rw [ih3, hc, hn, List.map_cons]
      dsimp only
      rw [List.append_cons, List.length_cons, range_rev_shift]
    · rw [ih4, hq, hn, List.append_assoc, List.singleton_append, List.length_cons,
        range_map_shift]

lemma readLine_line : ∀ (l : CStr) {rest : CStr} (cap : Nat), 10 ∉ l → l.length < cap →
    readLine cap (l ++ 10 :: rest) = (l ++ [10], rest) := by
  intro l
  induction l with
  | nil =>
    intro rest cap h10 hcap
    cases cap with
    | zero => omega
    | succ cap =>
      rw [List.nil_append, readLine, if_pos rfl]
      rfl
  | cons b l ih =>
    intro rest cap h10 hcap
    cases cap with
    | zero => omega
    | succ cap =>
      rw [List.mem_cons] at h10
      push_neg at h10
      rw [List.cons_append, readLine, if_neg (fun h => h10.1 h.symm),
        ih cap h10.2 (by rw [List.length_cons] at hcap; omega)]
      rfl

lemma readLine_full : ∀ (cap : Nat) (l : CStr) {rest : CStr}, 10 ∉ l → cap ≤ l.length →
    readLine cap (l ++ rest) = (l.take cap, l.drop cap ++ rest) := by
  intro cap
  induction cap with
  | zero =>
    intro l rest h10 hcap
    rw [readLine]
    simp
  | succ cap ih =>
    intro l rest h10 hcap
    cases l with
    | nil => simp at hcap
    | cons b l2 =>
      rw [List.mem_cons] at h10
      push_neg at h10
      rw [List.cons_append, readLine, if_neg (fun h => h10.1 h.symm),
        ih l2 h10.2 (by rw [List.length_cons] at hcap; omega)]
      rfl

lemma joinLines_cons (l : CStr) (ls : List CStr) :
    joinLines (l :: ls) = l ++ 10 :: joinLines ls := by
  unfold joinLines
  rw [List.map_cons, List.flatten_cons, List.append_assoc, List.singleton_append]

lemma fgetsGo_succ (fuel : Nat) (s : CStr) (hs : s ≠ []) :
    fgetsGo (fuel + 1) s = (readLine 4095 s).1 :: fgetsGo fuel (readLine 4095 s).2 := by
  cases s with
  | nil => exact absurd rfl hs
  | cons b t => rw [fgetsGo]

lemma fgetsGo_join : ∀ (ls : List CStr), (∀ l ∈ ls, 10 ∉ l ∧ l.length ≤ 4094) →
    ∀ fuel, (joinLines ls).length ≤ fuel →
      fgetsGo fuel (joinLines ls) = ls.map (fun l => l ++ [10]) := by
  intro ls
  induction ls with
  | nil =>
    intro h fuel hfuel
    cases fuel with
    | zero => rfl
    | succ fuel => rfl
  | cons l ls ih =>
    intro h fuel hfuel
    obtain ⟨h10, hlen⟩ := h l (List.mem_cons_self _ _)
    rw [joinLines_cons] at hfuel ⊢
    have hjl : (l ++ 10 :: joinLines ls).length = l.length + 1 + (joinLines ls).length := by
      rw [List.length_append, List.length_cons]
      omega
    cases fuel with
    | zero => omega
    | succ fuel =>
      rw [fgetsGo_succ fuel _ (by simp), readLine_line l 4095 h10 (by omega)]
      rw [ih (fun x hx => h x (List.mem_cons_of_mem _ hx)) fuel (by omega), List.map_cons]

lemma fgets_split_join {ls : List CStr} (h : ∀ l ∈ ls, 10 ∉ l ∧ l.length ≤ 4094) :
    fgets_split (joinLines ls) = ls.map (fun l => l ++ [10]) :=
  fgetsGo_join ls h _ (le_refl _)

lemma loadLine_nl (st : PState × AppState) (l : CStr) :
    loadLine st (l ++ [10]) = loadLine st l := by
  unfold loadLine
  rw [trim_newline_append_nl]

lemma foldl_loadLine_chunks (ls : List CStr) :
    ∀ st, (ls.map (fun l => l ++ [10])).foldl loadLine st = ls.foldl loadLine st := by
  induction ls with
  | nil => intro st; rfl
  | cons l ls ih =>
    intro st
    rw [List.map_cons, List.foldl_cons, List.foldl_cons, loadLine_nl, ih]

lemma save_lines_no_nl {s : AppState} (hText : TextInv s.cards) :
    ∀ line ∈ save_cards s, 10 ∉ line := by
  intro line hline
  unfold save_cards at hline
  obtain ⟨block, hb, hlb⟩ := List.mem_flatten.mp hline
  obtain ⟨c, hc, hcb⟩ := List.mem_map.mp hb
  obtain ⟨hq, ha, ht⟩ := hText c hc
  subst hcb
  unfold cardBlock at hlb
  simp only [List.mem_cons, List.mem_singleton, List.not_mem_nil, or_false] at hlb
  intro h10
  rcases hlb with rfl | rfl | rfl | rfl | rfl | rfl | rfl
  · rcases List.mem_append.mp h10 with h1 | h2
    · exact absurd h1 (by decide)
    · exact (intToStr_not_mem_nl c.id).1 h2
  · rcases List.mem_append.mp h10 with h1 | h2
    · exact absurd h1 (by decide)
    · exact hq.1 h2
  · rcases List.mem_append.mp h10 with h1 | h2
    · exact absurd h1 (by decide)
    · exact ha.1 h2
  · rcases List.mem_append.mp h10 with h1 | h2
    · exact absurd h1 (by decide)
    · rcases mem_joinComma h2 with h44 | ⟨u, hum, hbu⟩
      · omega
      · exact (ht u hum).1 hbu
  · rcases List.mem_append.mp h10 with h1 | h2
    · exact absurd h1 (by decide)
    · exact (intToStr_not_mem_nl c.interval).1 h2
  · rcases List.mem_append.mp h10 with h1 | h2
    · exact absurd h1 (by decide)
    · exact (intToStr_not_mem_nl c.due_in).1 h2
  · exact absurd h10 (by decide)

lemma load_save (s : AppState) (hInv : StInv s) (hText : TextInv s.cards)
    (hfit : ∀ line ∈ save_cards s, line.length ≤ 4094) :
    (load_cards (save_stream s) s).cards.map cardData = (s.cards.map cardData).reverse ∧
      (load_cards (save_stream s) s).cards.map Card.id =
        (List.range s.cards.length).reverse.map
          (fun (k : Nat) => s.next_card_id + (k : Int)) ∧
      (load_cards (save_stream s) s).next_card_id = s.next_card_id + s.cards.length ∧
      (load_cards (save_stream s) s).queue =
        (List.range s.cards.length).map (fun (k : Nat) => s.next_card_id + (k : Int)) := by
  have hnl : ∀ line ∈ save_cards s, 10 ∉ line := save_lines_no_nl hText
  have hsplit : fgets_split (save_stream s) = (save_cards s).map (fun l => l ++ [10]) := by
    unfold save_stream
    exact fgets_split_join (fun l hl => ⟨hnl l hl, hfit l hl⟩)
  have hload : load_cards (save_stream s) s =
      s.cards.foldl (fun t c => loadStep c t)
        { s with cards := [], tag_map := [], queue := [] } := by
    unfold load_cards
    simp only
    rw [hsplit, foldl_loadLine_chunks]
    rw [show save_cards s = (s.cards.map cardBlock).flatten from rfl]
    rw [foldl_blocks s.cards _ (fun c hc => hText c hc)
        (fun c hc => hInv.tags_good c hc)
        (fun c hc => ⟨by have := hInv.ids_pos c hc; omega,
          by have := (hInv.sched c hc).1; omega, (hInv.sched c hc).2⟩)]
    exact commitCard_none_q rfl _
  obtain ⟨h1, h2, h3, h4⟩ := loadSteps_fold s.cards
      { s with cards := [], tag_map := [], queue := [] }
      (fun c hc => ⟨hInv.tags_good c hc, hInv.ids_lt c hc,
        (hInv.sched c hc).1, (hInv.sched c hc).2⟩)
  rw [hload]
  exact ⟨by rw [h1]; simp, by rw [h3]; simp, h2, h4⟩

/-- The 4094-byte line bound is forced: a file whose `Q=` line holds a
4094-byte question (4096 bytes before the line feed, as saved for a
question that came through the 4096-byte add prompt) is split by the
loader's `fgets` buffer, so the committed question is truncated to 4093
bytes and the spilled tail is parsed as a separate, ignored line. -/
lemma load_truncates_long_question :
    (load_cards
        (joinLines [[81, 61] ++ List.replicate 4094 97, str "A=a", str "---"])
        initState).cards.map (fun c => c.question.length) = [4093] := by
  have hq10 : (10 : Nat) ∉ [81, 61] ++ List.replicate 4094 97 := by
    intro hm
    rcases List.mem_append.mp hm with h1 | h2
    · simp at h1
    · rw [List.mem_replicate] at h2
      omega
  have hstream : joinLines [[81, 61] ++ List.replicate 4094 97, str "A=a", str "---"] =
      ([81, 61] ++ List.replicate 4094 97) ++ 10 :: joinLines [str "A=a", str "---"] :=
    joinLines_cons _ _
  have hlen : (joinLines
      [[81, 61] ++ List.replicate 4094 97, str "A=a", str "---"]).length = 4105 := by
    rw [hstream, List.length_append, List.length_cons, List.length_append,
      List.length_replicate,
      show (joinLines [str "A=a", str "---"]).length = 8 from by decide]
    norm_num
  have htake : ([81, 61] ++ List.replicate 4094 97).take 4095 =
      [81, 61] ++ List.replicate 4093 97 := by
    rw [List.take_append_eq_append_take, List.take_replicate]
    norm_num
  have hdrop : ([81, 61] ++ List.replicate 4094 97).drop 4095 = [97] := by
    rw [List.drop_append_eq_append_drop, List.drop_replicate]
    norm_num
  have hchunk1 := @readLine_full 4095 ([81, 61] ++ List.replicate 4094 97)
    (10 :: joinLines [str "A=a", str "---"]) hq10
    (by rw [List.length_append, List.length_replicate]; norm_num)
  rw [htake, hdrop] at hchunk1
  have hc2 : fgetsGo 4104 ([97] ++ 10 :: joinLines [str "A=a", str "---"]) =
      [[97, 10], str "A=a" ++ [10], str "---" ++ [10]] := by decide
  have hsplit : fgets_split (joinLines
        [[81, 61] ++ List.replicate 4094 97, str "A=a", str "---"]) =
      [[81, 61] ++ List.replicate 4093 97, [97, 10],
       str "A=a" ++ [10], str "---" ++ [10]] := by
    unfold fgets_split
    rw [hlen, hstream, show (4105 : Nat) = 4104 + 1 from rfl,
      fgetsGo_succ 4104 _ (by exact List.cons_ne_nil _ _), hchunk1]
    dsimp only
    rw [hc2]
  have hq4093 : GoodText (List.replicate 4093 97) := by
    refine ⟨?_, ?_, ?_⟩
    · intro hm
      rw [List.mem_replicate] at hm
      omega
    · intro hm
      rw [List.mem_replicate] at hm
      omega
    · intro b hb
      have hmem := mem_of_getLast_some hb
      rw [List.mem_replicate] at hmem
      omega
  have hA97 : GoodText [97] := by
    refine ⟨by decide, by decide, ?_⟩
    intro b hb
    rw [show ([97] : CStr).getLast? = some 97 from rfl, Option.some_inj] at hb
    omega
  have hl1 : ∀ s : AppState, loadLine (resetP, s) ([81, 61] ++ List.replicate 4093 97) =
      ({ resetP with qtext := some (List.replicate 4093 97) }, s) := by
    intro s
    have h := loadLine_Q resetP s (List.replicate 4093 97) hq4093
    rw [strQ_eq] at h
    exact h
  have hskip : ∀ (p : PState) (s : AppState), loadLine (p, s) [97, 10] = (p, s) := by
    intro p s
    unfold loadLine loadLineT
    dsimp only
    rw [show trim_newline [97, 10] = [97] from by decide]
    rw [if_neg (by decide), if_neg (by decide), if_neg (by decide), if_neg (by decide),
      if_neg (by decide), if_neg (by decide), if_neg (by decide)]
  have hl3 : ∀ (p : PState) (s : AppState), loadLine (p, s) (str "A=a" ++ [10]) =
      ({ p with atext := some [97] }, s) := by
    intro p s
    rw [show (str "A=a" ++ [10] : CStr) = (str "A=" ++ [97]) ++ [10] from by decide,
      loadLine_nl, loadLine_A p s [97] hA97]
  have hl4 : ∀ (p : PState) (s : AppState), loadLine (p, s) (str "---" ++ [10]) =
      (resetP, commitCard p s) := by
    intro p s
    rw [loadLine_nl, loadLine_sep]
  unfold load_cards
  simp only
  rw [hsplit, List.foldl_cons, hl1, List.foldl_cons, hskip, List.foldl_cons, hl3,
    List.foldl_cons, hl4, List.foldl_nil]
  rw [commitCard_none_q rfl]
  rw [commitCard_some rfl rfl]
  dsimp only
  rw [updateCard_cons_self rfl, List.map_cons, List.map_nil]
  rw [show ∀ (i d : Int) (c : Card), (loadFix i d c).question = c.question
      from fun i d c => rfl]
  dsimp only
  rw [List.length_replicate]

/-! ### Practice-round equations -/

lemma scanQueue_nil_none (cs : List Card) (o : Option Int) (q1 : List Int)
    (cs1 : List Card) (p : Nat) (hr : scanQueue [] cs = (o, q1, cs1, p)) : o = none := by
  unfold scanQueue at hr
  rw [List.length_nil, scanGo] at hr
  exact (congrArg (fun r => r.1) hr).symm

lemma queue_ne_of_scan_some {s : AppState} {cid : Int} {q1 : List Int}
    {cs1 : List Card} {p : Nat}
    (hr : scanQueue s.queue s.cards = (some cid, q1, cs1, p)) :
    s.queue.isEmpty = false := by
  cases hq : s.queue with
  | nil =>
    rw [hq] at hr
    exact absurd (scanQueue_nil_none _ _ _ _ _ hr) (by simp)
  | cons a l => rfl

lemma practice_round_eq {s : AppState} {cid : Int} {q1 : List Int}
    {cs1 : List Card} {p : Nat}
    (hr : scanQueue s.queue s.cards = (some cid, q1, cs1, p)) (v : Verdict) :
    practice_round v s =
      match v with
      | .eofBefore => { s with queue := q1, cards := cs1 }
      | .eofAfter => { s with queue := q1, cards := cs1 }
      | .stopBefore => { s with queue := q1 ++ [cid], cards := cs1 }
      | .stopAfter => { s with queue := q1 ++ [cid], cards := cs1 }
      | .correct => { s with queue := q1 ++ [cid], cards := updateCard cs1 cid gradeCorrect }
      | .incorrect =>
        { s with queue := q1 ++ [cid], cards := updateCard cs1 cid gradeIncorrect } := by
  have hne := queue_ne_of_scan_some hr
  unfold practice_round
  rw [if_neg (by rw [hne]; exact Bool.false_ne_true)]
  dsimp only
  rw [hr]

lemma gradeCorrect_id (c : Card) : (gradeCorrect c).id = c.id := rfl

lemma gradeIncorrect_id (c : Card) : (gradeIncorrect c).id = c.id := rfl

lemma gradeCorrect_eval {c : Card} (h : 1 ≤ c.interval) :
    (gradeCorrect c).interval = 2 * c.interval ∧
      (gradeCorrect c).due_in = 2 * c.interval := by
  unfold gradeCorrect
  dsimp only
  rw [if_neg (by omega)]
  constructor <;> ring

/-! ### The claims -/

/-- C1 (amended): saving a reachable store whose saved lines all fit the
loader's 4096-byte `fgets` buffer (at most 4094 bytes before the line
feed) and loading that file back reproduces every card's question,
answer, tags, interval and due_in exactly (with the store order
reversed), but does not reproduce the ids: the loader discards the saved
ids and assigns fresh consecutive ids starting at the loading state's id
counter, advances the counter past them, and enqueues the reloaded cards
in ascending id order. -/
theorem C1_save_load_round_trip (ops : List Op) (hgood : GoodOps ops)
    (hfit : ∀ line ∈ save_cards (applyOps initState ops), line.length ≤ 4094) :
    (load_cards (save_stream (applyOps initState ops)) (applyOps initState ops)).cards.map
        cardData = ((applyOps initState ops).cards.map cardData).reverse ∧
      (load_cards (save_stream (applyOps initState ops)) (applyOps initState ops)).cards.map
          Card.id =
        (List.range (applyOps initState ops).cards.length).reverse.map
          (fun (k : Nat) => (applyOps initState ops).next_card_id + (k : Int)) ∧
      (load_cards (save_stream (applyOps initState ops))
          (applyOps initState ops)).next_card_id
        = (applyOps initState ops).next_card_id + (applyOps initState ops).cards.length ∧
      (load_cards (save_stream (applyOps initState ops)) (applyOps initState ops)).queue =
        (List.range (applyOps initState ops).cards.length).map
          (fun (k : Nat) => (applyOps initState ops).next_card_id + (k : Int)) :=
  load_save _ (stInv_applyOps ops) (textInv_applyOps hgood) hfit

/-- Witness for C1 at the one-card store built by a single add. -/
theorem C1_save_load_round_trip_witness :
    GoodOps [exAdd1] ∧
      (∀ line ∈ save_cards exS1, line.length ≤ 4094) ∧
      ((load_cards (save_stream exS1) exS1).cards.map cardData =
          (exS1.cards.map cardData).reverse ∧
        (load_cards (save_stream exS1) exS1).cards.map Card.id =
          (List.range exS1.cards.length).reverse.map
            (fun (k : Nat) => exS1.next_card_id + (k : Int)) ∧
        (load_cards (save_stream exS1) exS1).next_card_id =
          exS1.next_card_id + exS1.cards.length ∧
        (load_cards (save_stream exS1) exS1).queue =
          (List.range exS1.cards.length).map
            (fun (k : Nat) => exS1.next_card_id + (k : Int))) :=
  have hg : GoodOps [exAdd1] := fun op hop => by
    rw [List.mem_singleton] at hop
    subst hop
    exact ⟨by decide, by decide, by decide⟩
  have hf : ∀ line ∈ save_cards exS1, line.length ≤ 4094 := by decide
  ⟨hg, hf, C1_save_load_round_trip [exAdd1] hg hf⟩

/-- Counterexample to C1 as stated: the reloaded copy of the single card
carries id 2, not the saved id 1, so the set of ids is not reproduced. -/
theorem C1_ids_change :
    (load_cards (save_stream exS1) exS1).cards.map Card.id ≠ exS1.cards.map Card.id := by
  decide

/-- C2: when a scan pass of a reachable state presents a card, grading it
correct doubles its interval, makes it due after that many rotations and
pushes it to the back of the queue; grading it incorrect resets interval
and due_in to 1 and also pushes it to the back. -/
theorem C2_grading (ops : List Op) {cid : Int} {q1 : List Int}
    {cs1 : List Card} {p : Nat}
    (hr : scanQueue (applyOps initState ops).queue (applyOps initState ops).cards =
      (some cid, q1, cs1, p)) :
    (getCard (practice_round .correct (applyOps initState ops)).cards cid).interval =
        2 * (getCard cs1 cid).interval ∧
      (getCard (practice_round .correct (applyOps initState ops)).cards cid).due_in =
        2 * (getCard cs1 cid).interval ∧
      (practice_round .correct (applyOps initState ops)).queue = q1 ++ [cid] ∧
      (getCard (practice_round .incorrect (applyOps initState ops)).cards cid).interval = 1 ∧
      (getCard (practice_round .incorrect (applyOps initState ops)).cards cid).due_in = 1 ∧
      (practice_round .incorrect (applyOps initState ops)).queue = q1 ++ [cid] := by
  have hInv := stInv_applyOps ops
  have hperm : (cid :: q1).Perm (applyOps initState ops).queue := scanGo_perm_some hr
  have hcidq : cid ∈ (applyOps initState ops).queue := hperm.subset (List.mem_cons_self _ _)
  have hcids : cid ∈ (applyOps initState ops).cards.map Card.id := hInv.queue_sub cid hcidq
  have hcid1 : cid ∈ cs1.map Card.id := by
    rw [map_id_of_map_shape (scanQueue_shape _ hr)]
    exact hcids
  have hsched := scanQueue_sched _ hr hInv.sched
  have hint : 1 ≤ (getCard cs1 cid).interval := (hsched _ (getCard_mem hcid1).1).1
  rw [practice_round_eq hr .correct, practice_round_eq hr .incorrect]
  dsimp only
  rw [getCard_updateCard_self gradeCorrect_id hcid1,
    getCard_updateCard_self gradeIncorrect_id hcid1]
  exact ⟨(gradeCorrect_eval hint).1, (gradeCorrect_eval hint).2, rfl, rfl, rfl, rfl⟩

/-- Witness for C2: the freshly added card is presented at once and graded. -/
theorem C2_grading_witness :
    scanQueue exS1.queue exS1.cards = (some 1, [], exS1.cards, 1) ∧
      ((getCard (practice_round .correct exS1).cards 1).interval =
          2 * (getCard exS1.cards 1).interval ∧
        (getCard (practice_round .correct exS1).cards 1).due_in =
          2 * (getCard exS1.cards 1).interval ∧
        (practice_round .correct exS1).queue = [] ++ [1] ∧
        (getCard (practice_round .incorrect exS1).cards 1).interval = 1 ∧
        (getCard (practice_round .incorrect exS1).cards 1).due_in = 1 ∧
        (practice_round .incorrect exS1).queue = [] ++ [1]) :=
  have hx : scanQueue exS1.queue exS1.cards = (some 1, [], exS1.cards, 1) := by decide
  ⟨hx, C2_grading [exAdd1] hx⟩

/-! ### Queue and store bijection under create and delete -/

lemma bij_add {s : AppState} (hbij : s.queue.Perm (cardIds s))
    (qline aline tline : CStr) :
    (add_card_interactive qline aline tline s).queue.Perm
      (cardIds (add_card_interactive qline aline tline s)) := by
  by_cases hq : trim_newline qline = []
  · rw [add_card_nil hq]
    exact hbij
  · rw [add_card_pos hq]
    unfold cardIds
    dsimp only
    rw [updateCard_map_id setDue0_id, List.map_cons]
    exact (List.perm_append_singleton _ _).trans
      ((hbij.cons s.next_card_id).trans (List.Perm.refl _))

lemma bij_remove {s : AppState} (hInv : StInv s) (hbij : s.queue.Perm (cardIds s))
    (i : Int) :
    (remove_card_interactive i s).queue.Perm (cardIds (remove_card_interactive i s)) := by
  rcases hf : s.cards.find? (fun c => c.id == i) with _ | c
  · rw [remove_card_none hf]
    exact hbij
  · rw [remove_card_some hf]
    unfold cardIds
    dsimp only
    rw [eraseCardById_map_id]
    have h1 : s.queue.filter (fun j => decide (j ≠ c.id)) = s.queue.erase c.id := by
      rw [hInv.queue_nodup.erase_eq_filter c.id]
      exact (List.filter_congr (fun x _ => by by_cases hx : x = c.id <;> simp [hx])).symm
    have h2 : (s.queue.erase c.id).Perm ((cardIds s).erase c.id) := hbij.erase c.id
    unfold cardIds at h2
    exact h1 ▸ h2

lemma bij_fold {s : AppState} (hInv : StInv s) (hbij : s.queue.Perm (cardIds s))
    {ops : List Op} (h : AddRemOnly ops) :
    (applyOps s ops).queue.Perm (cardIds (applyOps s ops)) := by
  induction ops generalizing s with
  | nil => exact hbij
  | cons op ops ih =>
    have hop := h op (List.mem_cons_self _ _)
    have htl : AddRemOnly ops := fun o ho => h o (List.mem_cons_of_mem _ ho)
    cases op with
    | add q a t =>
      exact ih (stInv_applyOp hInv (.add q a t)) (bij_add hbij q a t) htl
    | remove i =>
      exact ih (stInv_applyOp hInv (.remove i)) (bij_remove hInv hbij i) htl
    | practice v => cases hop
    | load lines => cases hop

/-- C3: after any sequence of interactive creates and deletes, draining
the review queue yields exactly the ids of the card store, each id once:
the queue is a permutation of the store's (duplicate-free) id list. -/
theorem C3_bijection (ops : List Op) (h : AddRemOnly ops) :
    (applyOps initState ops).queue.Perm (cardIds (applyOps initState ops)) ∧
      (applyOps initState ops).queue.Nodup ∧ (cardIds (applyOps initState ops)).Nodup :=
  ⟨bij_fold stInv_init (List.Perm.refl []) h,
    (stInv_applyOps ops).queue_nodup, (stInv_applyOps ops).ids_nodup⟩

/-- Witness for C3 after an add, another add and a delete. -/
theorem C3_bijection_witness :
    AddRemOnly [exAdd1, Op.add (str "q2") (str "a2") (str "t2"), Op.remove 1] ∧
      ((applyOps initState
            [exAdd1, Op.add (str "q2") (str "a2") (str "t2"), Op.remove 1]).queue.Perm
          (cardIds (applyOps initState
            [exAdd1, Op.add (str "q2") (str "a2") (str "t2"), Op.remove 1])) ∧
        (applyOps initState
          [exAdd1, Op.add (str "q2") (str "a2") (str "t2"), Op.remove 1]).queue.Nodup ∧
        (cardIds (applyOps initState
          [exAdd1, Op.add (str "q2") (str "a2") (str "t2"), Op.remove 1])).Nodup) :=
  have hg : AddRemOnly [exAdd1, Op.add (str "q2") (str "a2") (str "t2"), Op.remove 1] := by
    intro op hop
    rcases List.mem_cons.mp hop with rfl | hop
    · exact trivial
    rcases List.mem_cons.mp hop with rfl | hop
    · exact trivial
    rcases List.mem_cons.mp hop with rfl | hop
    · exact trivial
    cases hop
  ⟨hg, C3_bijection [exAdd1, Op.add (str "q2") (str "a2") (str "t2"), Op.remove 1] hg⟩

/-- C4: after deleting a card from a reachable state, its id is in the
lookup result of no tag whatsoever, and no empty tag bucket remains in
the tag index. -/
theorem C4_delete_purges_tags (ops : List Op) (i : Int) :
    (∀ t, i ∉ lookupList
        (remove_card_interactive i (applyOps initState ops)).tag_map t) ∧
      ∀ e ∈ (remove_card_interactive i (applyOps initState ops)).tag_map, e.2 ≠ [] := by
  have hInv := stInv_applyOps ops
  have hInv' := stInv_remove hInv i
  have hgone : i ∉ (remove_card_interactive i (applyOps initState ops)).cards.map Card.id := by
    rcases hf : (applyOps initState ops).cards.find? (fun c => c.id == i) with _ | c
    · rw [remove_card_none hf]
      intro hmem
      obtain ⟨c, hc, hce⟩ := List.mem_map.mp hmem
      rw [List.find?_eq_none] at hf
      have := hf c hc
      simp [hce] at this
    · obtain ⟨hcm, hci⟩ := find_card_eq_some hf
      rw [remove_card_some hf]
      dsimp only
      rw [eraseCardById_map_id, hci]
      exact hInv.ids_nodup.not_mem_erase
  refine ⟨fun t => ?_, hInv'.buckets_ne⟩
  have hcount := hInv'.tag_count t i
  have hzero : countTagIn (remove_card_interactive i (applyOps initState ops)).cards i t = 0 := by
    unfold countTagIn
    rw [find_card_eq_none hgone]
  rw [hzero] at hcount
  intro hmem
  have := List.count_pos_iff.mpr hmem
  omega

/-- C5: one scan pass of a reachable state presents the first due card of
the queue after popping exactly the not-yet-due cards in front of it:
each of those is decremented by one and requeued at the back, the due
card is presented, and the number of pops is bounded by the queue size. -/
theorem C5_fairness (ops : List Op) {xs ys : List Int} {cid : Int}
    (hq : (applyOps initState ops).queue = xs ++ cid :: ys)
    (hpos : ∀ i ∈ xs, 0 < (getCard (applyOps initState ops).cards i).due_in)
    (hdue : (getCard (applyOps initState ops).cards cid).due_in = 0) :
    scanQueue (applyOps initState ops).queue (applyOps initState ops).cards =
      (some cid, ys ++ xs,
        xs.foldl (fun a i => updateCard a i decDue) (applyOps initState ops).cards,
        xs.length + 1) ∧
      xs.length + 1 ≤ (applyOps initState ops).queue.length := by
  have hInv := stInv_applyOps ops
  have hnd : (xs ++ cid :: ys).Nodup := by
    rw [← hq]
    exact hInv.queue_nodup
  obtain ⟨hndx, hndr, hdisj⟩ := List.nodup_append.mp hnd
  have hcx : cid ∉ xs := fun hx => hdisj hx (List.mem_cons_self _ _)
  have hmem : ∀ i ∈ xs, i ∈ (applyOps initState ops).cards.map Card.id := by
    intro i hi
    refine hInv.queue_sub i ?_
    rw [hq]
    exact List.mem_append_left _ hi
  constructor
  · unfold scanQueue
    rw [hq]
    refine scanGo_finds ys ?_ hndx hcx hmem hpos (by omega)
    simp only [List.length_append, List.length_cons]
    omega
  · rw [hq]
    simp only [List.length_append, List.length_cons]
    omega

/-- Witness for C5 on the loaded two-card file: the not-yet-due first card
is popped, decremented and requeued, and the due second card is presented
with two pops. -/
theorem C5_fairness_witness :
    exS3.queue = [1] ++ 2 :: [] ∧
      (∀ i ∈ [(1 : Int)], 0 < (getCard exS3.cards i).due_in) ∧
      (getCard exS3.cards 2).due_in = 0 ∧
      (scanQueue exS3.queue exS3.cards =
          (some 2, [] ++ [1],
            [(1 : Int)].foldl (fun a i => updateCard a i decDue) exS3.cards, [(1 : Int)].length + 1) ∧
        [(1 : Int)].length + 1 ≤ exS3.queue.length) :=
  have h1 : exS3.queue = [1] ++ 2 :: [] := by decide
  have h2 : ∀ i ∈ [(1 : Int)], 0 < (getCard exS3.cards i).due_in := by decide
  have h3 : (getCard exS3.cards 2).due_in = 0 := by decide
  ⟨h1, h2, h3, C5_fairness [Op.load (joinLines exLines)] h1 h2 h3⟩

/-- C6 (amended): the interactive add leaves the state unchanged (no card,
no tag registration, no enqueue) exactly when the question line is empty
after stripping the trailing newline; the question is not trimmed of
other whitespace, so a whitespace-only question creates a card. -/
theorem C6_empty_question (s : AppState) (qline aline tline : CStr) :
    add_card_interactive qline aline tline s = s ↔ trim_newline qline = [] := by
  constructor
  · intro he
    by_contra hq
    rw [add_card_pos hq] at he
    have := congrArg AppState.next_card_id he
    simp only at this
    omega
  · intro hq
    exact add_card_nil hq aline tline s

/-- Counterexample to C6 as stated: a question of one space is empty after
trimming whitespace, yet the add is not rejected and creates a card. -/
theorem C6_whitespace_question_accepted :
    trim_whitespace (str " ") = [] ∧
      (applyOps initState [Op.add (str " ") (str "a1") (str "t1")]).cards.map
        Card.question = [str " "] := by
  decide

/-- C7 (amended): for queries of at most 255 bytes the tag lookup first
normalizes the query (trim surrounding whitespace, then lower-case), so
it agrees with the lookup of the normalized tag itself; longer queries
are first truncated to 255 bytes by the `strncpy` copy. -/
theorem C7_lookup_normalizes (s : AppState) (query : CStr)
    (hlen : query.length ≤ 255) :
    search_by_tag s query = lookupList s.tag_map (normalize_tag query) ∧
      search_by_tag s query = search_by_tag s (normalize_tag query) := by
  have h1 : query.take 255 = query := List.take_of_length_le hlen
  have h2 : (normalize_tag query).take 255 = normalize_tag query :=
    List.take_of_length_le ((length_normalize_tag_le query).trans hlen)
  unfold search_by_tag
  rw [h1, h2, normalize_tag_idem]
  exact ⟨rfl, rfl⟩

/-- Witness for C7: the query of mixed case with surrounding spaces finds
the card stored under the normalized tag. -/
theorem C7_lookup_normalizes_witness :
    (str " DS ").length ≤ 255 ∧
      (search_by_tag exS1 (str " DS ") =
          lookupList exS1.tag_map (normalize_tag (str " DS ")) ∧
        search_by_tag exS1 (str " DS ") =
          search_by_tag exS1 (normalize_tag (str " DS "))) :=
  ⟨by decide, C7_lookup_normalizes exS1 (str " DS ") (by decide)⟩

set_option maxRecDepth 4096 in
/-- Counterexample to C7 as stated: a 256-byte query that normalizes to a
stored 255-byte tag misses the card, because the query is truncated to
255 bytes before normalization. -/
theorem C7_truncation_breaks_lookup :
    normalize_tag (32 :: tag255) = tag255 ∧
      search_by_tag exS7 (32 :: tag255) ≠ search_by_tag exS7 (normalize_tag (32 :: tag255)) := by
  constructor <;> decide

/-- C8: in every state reachable by any sequence of interactive
operations, every stored card has interval at least 1 and due_in at
least 0. -/
theorem C8_sched_bounds (ops : List Op) :
    ∀ c ∈ (applyOps initState ops).cards, 1 ≤ c.interval ∧ 0 ≤ c.due_in :=
  (stInv_applyOps ops).sched

/-- C9 (amended): in every reachable state a card's multiplicity in a tag
lookup equals the number of times the (normalized, truncated) queried tag
occurs in that card's tag list: a tag listed twice at creation yields the
card twice in the lookup result, which is a list, not a set. -/
theorem C9_lookup_multiplicity (ops : List Op) (query : CStr) (i : Int) :
    (search_by_tag (applyOps initState ops) query).count i =
      countTagIn (applyOps initState ops).cards i (normalize_tag (query.take 255)) :=
  (stInv_applyOps ops).tag_count _ i

/-- Counterexample to C9 as stated: a card created with the tag list
written as one tag twice appears twice in that tag's lookup result. -/
theorem C9_duplicate_tag_duplicates :
    (search_by_tag (applyOps initState [Op.add (str "q1") (str "a1") (str "a,a")])
      (str "a")).count 1 = 2 := by
  decide

/-- C10: when input ends at either prompt while a card is presented, the
practice loop returns with the scanned queue and store but without
requeueing the presented card: the card's id leaves the review queue
while the store keeps a card of that id with unchanged identity, content
and tags, and the tag index is untouched. -/
theorem C10_eof_drops_from_queue (ops : List Op) {cid : Int} {q1 : List Int}
    {cs1 : List Card} {p : Nat}
    (hr : scanQueue (applyOps initState ops).queue (applyOps initState ops).cards =
      (some cid, q1, cs1, p)) :
    (practice_round .eofBefore (applyOps initState ops)).queue = q1 ∧
      cid ∉ (practice_round .eofBefore (applyOps initState ops)).queue ∧
      cid ∈ (practice_round .eofBefore (applyOps initState ops)).cards.map Card.id ∧
      (practice_round .eofBefore (applyOps initState ops)).cards.map shape =
        (applyOps initState ops).cards.map shape ∧
      (practice_round .eofBefore (applyOps initState ops)).tag_map =
        (applyOps initState ops).tag_map ∧
      practice_round .eofAfter (applyOps initState ops) =
        practice_round .eofBefore (applyOps initState ops) := by
  have hInv := stInv_applyOps ops
  have hperm : (cid :: q1).Perm (applyOps initState ops).queue := scanGo_perm_some hr
  have hnd : (cid :: q1).Nodup := hperm.symm.nodup hInv.queue_nodup
  rw [List.nodup_cons] at hnd
  have hcidq : cid ∈ (applyOps initState ops).queue := hperm.subset (List.mem_cons_self _ _)
  have hcids : cid ∈ (applyOps initState ops).cards.map Card.id := hInv.queue_sub cid hcidq
  have hshape := scanQueue_shape _ hr
  rw [practice_round_eq hr .eofBefore, practice_round_eq hr .eofAfter]
  dsimp only
  refine ⟨rfl, hnd.1, ?_, hshape, rfl, rfl⟩
  rw [map_id_of_map_shape hshape]
  exact hcids

/-- Witness for C10: end-of-file right after the single card is presented
leaves the queue empty while the card stays in the store and tag index. -/
theorem C10_eof_drops_from_queue_witness :
    scanQueue exS1.queue exS1.cards = (some 1, [], exS1.cards, 1) ∧
      ((practice_round .eofBefore exS1).queue = [] ∧
        1 ∉ (practice_round .eofBefore exS1).queue ∧
        1 ∈ (practice_round .eofBefore exS1).cards.map Card.id ∧
        (practice_round .eofBefore exS1).cards.map shape = exS1.cards.map shape ∧
        (practice_round .eofBefore exS1).tag_map = exS1.tag_map ∧
        practice_round .eofAfter exS1 = practice_round .eofBefore exS1) :=
  have hx : scanQueue exS1.queue exS1.cards = (some 1, [], exS1.cards, 1) := by decide
  ⟨hx, C10_eof_drops_from_queue [exAdd1] hx⟩

/-- Witness for C8 at the card created by one interactive add. -/
theorem C8_sched_bounds_witness :
    (⟨1, str "q1", str "a1", [str "ds"], 1, 0⟩ : Card) ∈ exS1.cards ∧
      1 ≤ (⟨1, str "q1", str "a1", [str "ds"], 1, 0⟩ : Card).interval ∧
      0 ≤ (⟨1, str "q1", str "a1", [str "ds"], 1, 0⟩ : Card).due_in :=
  have hm : (⟨1, str "q1", str "a1", [str "ds"], 1, 0⟩ : Card) ∈ exS1.cards := by decide
  ⟨hm, C8_sched_bounds [exAdd1] _ hm⟩
